import Mathlib

/-!
A shallow embedding of the execution engine of `servecmd`
(`src/servecmd/cmd_session.py` and `src/servecmd/util.py`).

Modelling conventions:
* Byte strings (Python `bytes`) and text strings are both modelled as Lean
  `String` (in this toolchain a `String` is a wrapper around `List Char`);
  UTF-8 encoding/decoding is the identity in the model.
* The filesystem is a pair of lists: directory paths and `(path, contents)`
  file entries, with paths stored as normalised component lists.
* Exceptions are modelled with `Except Err`; Python mutation of
  `self._params_cache`, the filesystem and the log sink is explicit state
  passing via `St`.  Effects performed before an exception persist in the
  returned state, as they do in Python.
* The single subprocess invocation of a run is an oracle value
  (`Option SubprocResult`; `none` models a spawn failure), since the child
  process is outside the program.
-/

namespace ServeCmd

deriving instance DecidableEq for Except

/-- A Python value as it appears in caller-supplied parameter maps and in
resolved parameter values: `None`, a `str`, or a `bytes` payload. -/
inductive Value where
  | vnone
  | vstr (s : String)
  | vbytes (b : String)
deriving DecidableEq, Repr

/-- Python `str(value)`, as applied by `Template.safe_substitute` to the
values of the mapping.  `repr` escaping inside `bytes` is not modelled
(byte payloads substituted into templates are taken verbatim between the
`b'...'` quotes). -/
def pyStr : Value → String
  | .vnone => "None"
  | .vstr s => s
  | .vbytes b => "b" ++ "'" ++ b ++ "'"

/-- First-match association-list lookup: the model of a Python dict read. -/
def lookupL {α : Type} : List (String × α) → String → Option α
  | [], _ => none
  | (k, v) :: r, n => if k == n then some v else lookupL r n

/-- `kwargs.get(name)`: absent keys give Python `None`. -/
def kwGet (kw : List (String × Value)) (n : String) : Value :=
  (lookupL kw n).getD .vnone

/-- One entry of `cmd_config['params']`. -/
structure ParamSpec where
  required : Bool := false
  type : Option String := none
  filename : Option String := none
deriving DecidableEq, Repr

/-- A structured entry of `cmd_config['return']`. -/
structure RetDict where
  name : String
  type : String
  filename : Option String := none
  glob : Option String := none
  mimetype : Option String := none
  encoding : Option String := none
deriving DecidableEq, Repr

/-- An entry of `cmd_config['return']`: a bare string or a dict. -/
inductive RetItem where
  | str (s : String)
  | dict (d : RetDict)
deriving DecidableEq, Repr

/-- The declarative command specification (one registry entry).
`params` is the insertion-ordered dict of parameter specs, `command` the
ordered command-line templates (`none` models a YAML `null` item), `ret`
the `return` list. -/
structure CmdConfig where
  cwd : Option String := none
  params : List (String × ParamSpec) := []
  command : List (Option String) := []
  ret : List RetItem := []
deriving DecidableEq, Repr

/-! ### Paths and the filesystem model -/

/-- Errors raised by the engine. -/
inductive Err where
  | valueError (msg : String)
  | ioError (p : List String)
  | keyError (k : String)
  | spawnError
deriving DecidableEq, Repr

/-- Split a character list at every occurrence of `sep` (the pieces do not
contain `sep`; n separators give n+1 pieces). -/
def splitChars (sep : Char) : List Char → List (List Char)
  | [] => [[]]
  | c :: r =>
    if c == sep then [] :: splitChars sep r
    else
      match splitChars sep r with
      | [] => [[c]]
      | p :: ps => (c :: p) :: ps

/-- Split a path string on `/`. -/
def splitPath (s : String) : List String :=
  (splitChars '/' s.data).map (fun l => ⟨l⟩)

/-- Join strings with a separator. -/
def joinWith (sep : String) : List String → String
  | [] => ""
  | [x] => x
  | x :: r => x ++ sep ++ joinWith sep r

/-- OS-level path normalisation over components: empty components and `.`
are dropped, `..` removes the preceding component (clamping at the top). -/
def resolveComps (l : List String) : List String :=
  l.foldl
    (fun acc c =>
      if c == "" || c == "." then acc
      else if c == ".." then acc.dropLast
      else acc ++ [c]) []

/-- Normalised components of a path string. -/
def pathComps (s : String) : List String :=
  resolveComps (splitPath s)

/-- `pre` is a leading run of components of `p`. -/
def startsWithComps : List String → List String → Bool
  | [], _ => true
  | a :: p, b :: q => a == b && startsWithComps p q
  | _ :: _, [] => false

/-- The filesystem: existing directories and `(path, contents)` regular
files, all paths as normalised component lists. -/
structure Fs where
  dirs : List (List String)
  files : List (List String × String)
deriving DecidableEq, Repr

/-- `os.path.lexists`. -/
def lexists (fs : Fs) (p : List String) : Bool :=
  fs.dirs.contains p || (fs.files.map (·.1)).contains p

/-- All nonempty leading runs of `p`, shortest first (ending with `p`). -/
def prefixesOf (p : List String) : List (List String) :=
  (List.range p.length).map (fun k => p.take (k + 1))

/-- `os.makedirs(p, exist_ok=True)`: creates every missing ancestor;
raises `FileExistsError` if a regular file occupies any of them. -/
def mkdirsE (fs : Fs) (p : List String) : Except Err Fs :=
  if (prefixesOf p).any (fun q => (fs.files.map (·.1)).contains q) then
    .error (.ioError p)
  else
    .ok { fs with
          dirs := fs.dirs ++ (prefixesOf p).filter (fun q => !fs.dirs.contains q) }

/-- `open(p, 'wb')` followed by a full write: fails if `p` is a directory
or its parent directory does not exist; overwrites an existing file. -/
def writeFileE (fs : Fs) (p : List String) (content : String) : Except Err Fs :=
  if fs.dirs.contains p then .error (.ioError p)
  else if !fs.dirs.contains p.dropLast then .error (.ioError p)
  else .ok { fs with files := (fs.files.filter (fun f => f.1 ≠ p)) ++ [(p, content)] }

/-- `open(p, 'rb')` followed by a full read. -/
def readFileE (fs : Fs) (p : List String) : Except Err String :=
  match (fs.files.filter (fun f => f.1 == p)).head? with
  | some f => .ok f.2
  | none => .error (.ioError p)

/-- `shutil.rmtree(p, ignore_errors=True)`: removes the directory `p` and
everything below it; a missing directory (or a non-directory at `p`) is
silently tolerated, removing nothing. -/
def rmtreeFs (fs : Fs) (p : List String) : Fs :=
  if fs.dirs.contains p then
    { dirs := fs.dirs.filter (fun d => !startsWithComps p d),
      files := fs.files.filter (fun f => !startsWithComps p f.1) }
  else fs

/-! ### Job paths (`CmdSession.get_job_path` and friends) -/

/-- Python `s.rstrip('/')`. -/
def rstripSlash (s : String) : String :=
  ⟨(s.data.reverse.dropWhile (fun c => c == '/')).reverse⟩

/-- `self.cmd_config.get("cwd", "") or conf.CONFIG.get('default_workdir')`:
an absent or empty `cwd` falls back to the configured default workdir. -/
def cwdBase (cfg : CmdConfig) (dw : String) : String :=
  match cfg.cwd with
  | some c => if c == "" then dw else c
  | none => dw

/-- `CmdSession.get_job_path`. -/
def jobPathStr (cfg : CmdConfig) (dw jobId : String) : String :=
  rstripSlash (cwdBase cfg dw) ++ "/" ++ jobId

/-- `CmdSession.get_job_file_path`. -/
def jobFilePathStr (cfg : CmdConfig) (dw jobId fn : String) : String :=
  jobPathStr cfg dw jobId ++ "/" ++ fn

/-- Normalised components of the job's scratch directory. -/
def scratchComps (cfg : CmdConfig) (dw jobId : String) : List String :=
  pathComps (jobPathStr cfg dw jobId)

/-! ### The session state -/

/-- One record produced by the execution-side `util.json_log_info` call. -/
structure LogRec where
  jobId : String
  returncode : Int
  usedTime : Nat
  stderr : String
deriving DecidableEq, Repr

/-- Observable events of a run: the subprocess invocation, the execution
log record, and the rendered-command log record. -/
inductive Event where
  | subproc (cmd : String)
  | execLog (rec : LogRec)
  | cmdLog (jobId cmd : String)
deriving DecidableEq, Repr

/-- The mutable state threaded through a session: the filesystem, the
memoised `_params_cache`, and the emitted events in order. -/
structure St where
  fs : Fs
  cache : List (String × Value)
  events : List Event
deriving DecidableEq, Repr

/-- The state of a freshly constructed `CmdSession` (empty cache, nothing
logged yet), over a given ambient filesystem. -/
def initSt (fs : Fs) : St := { fs := fs, cache := [], events := [] }

/-! ### Parameter resolution (`CmdSession.get_params`) -/

/-- `param_config.get('filename') or param_name`. -/
def paramFilename (ps : ParamSpec) (n : String) : String :=
  match ps.filename with
  | some f => if f == "" then n else f
  | none => n

/-- `value = value or b''` followed by utf-8 encoding of `str` values:
the bytes written for a file-type parameter. -/
def fileContent : Value → String
  | .vnone => ""
  | .vstr s => s
  | .vbytes b => b

/-- `CmdSession.get_params(*param_name_list, **kwargs)`.  Results are
returned in request order; the cache and the filesystem updates of names
processed before an exception persist in the returned state. -/
def getParams (cfg : CmdConfig) (dw jobId : String) (kw : List (String × Value)) :
    List String → St → St × Except Err (List (String × Value))
  | [], st => (st, .ok [])
  | n :: rest, st =>
    match lookupL st.cache n with
    | some v =>
      match getParams cfg dw jobId kw rest st with
      | (st1, res) => (st1, res.map (fun l => (n, v) :: l))
    | none =>
      match lookupL cfg.params n with
      | none =>
        match lookupL kw n with
        | some v =>
          match getParams cfg dw jobId kw rest { st with cache := (n, v) :: st.cache } with
          | (st1, res) => (st1, res.map (fun l => (n, v) :: l))
        | none => getParams cfg dw jobId kw rest st
      | some ps =>
        if ps.required && (kwGet kw n == Value.vnone) then
          (st, .error (.valueError ("Missing required param: " ++ n)))
        else if ps.type == some "file" then
          match writeFileE st.fs
              (pathComps (jobFilePathStr cfg dw jobId (paramFilename ps n)))
              (fileContent (kwGet kw n)) with
          | .error e => (st, .error e)
          | .ok fs' =>
            match getParams cfg dw jobId kw rest
                { st with fs := fs', cache := (n, Value.vstr (paramFilename ps n)) :: st.cache } with
            | (st1, res) =>
              (st1, res.map (fun l => (n, Value.vstr (paramFilename ps n)) :: l))
        else
          match getParams cfg dw jobId kw rest
              { st with cache := (n, kwGet kw n) :: st.cache } with
          | (st1, res) => (st1, res.map (fun l => (n, kwGet kw n) :: l))

/-- `CmdSession.preprocess_params`: resolve every declared parameter name
in declaration order, discarding the values. -/
def preprocessParams (cfg : CmdConfig) (dw jobId : String) (kw : List (String × Value)) :
    List (String × ParamSpec) → St → St × Except Err Unit
  | [], st => (st, .ok ())
  | (n, _) :: rest, st =>
    match getParams cfg dw jobId kw [n] st with
    | (st1, .error e) => (st1, .error e)
    | (st1, .ok _) => preprocessParams cfg dw jobId kw rest st1

/-! ### Template engine (`string.Template`, as used via `util.Template`)

The scanner below is the operational reading of `string.Template`'s
default regex with delimiter `$` and id pattern `[_a-z][_a-z0-9]*`
(ASCII, case-insensitive): at each `$` the alternatives `escaped`
(`$$`), `named` (`$name`), `braced` (`${name}`) and `invalid` (a bare
`$`) are tried in that order; all other characters are literal text. -/

/-- May a character start an identifier (`[_a-z]`, ASCII, case-insensitive)? -/
def isIdStart (c : Char) : Bool := c.isAlpha || c == '_'

/-- May a character continue an identifier (`[_a-z0-9]`)? -/
def isIdChar (c : Char) : Bool := isIdStart c || c.isDigit

/-- Longest leading run of identifier characters, and the rest. -/
def scanId : List Char → List Char × List Char
  | [] => ([], [])
  | c :: r =>
    if isIdChar c then
      let p := scanId r
      (c :: p.1, p.2)
    else ([], c :: r)

/-- One lexical token of a template. -/
inductive Tok where
  | lit (c : Char)
  | escaped
  | named (n : String)
  | braced (n : String)
  | invalid
deriving DecidableEq, Repr

/-- Recognise the `braced` alternative just after a `${`; on failure the
regex match was the lone `invalid` `$`, so the `{...` text stays. -/
def bracedTok (r : List Char) : Tok × List Char :=
  match scanId r with
  | ([], _) => (.invalid, '{' :: r)
  | (c :: nm, r') =>
    match r' with
    | '}' :: r'' =>
      if isIdStart c then (.braced ⟨c :: nm⟩, r'') else (.invalid, '{' :: r)
    | _ => (.invalid, '{' :: r)

/-- Recognise the alternative just after a `$`. -/
def dollarTok : List Char → Tok × List Char
  | [] => (.invalid, [])
  | c :: r =>
    if c == '$' then (.escaped, r)
    else if c == '{' then bracedTok r
    else if isIdStart c then
      let p := scanId r
      (.named ⟨c :: p.1⟩, p.2)
    else (.invalid, c :: r)

/-- One scanner step: the next token and the remaining input. -/
def tokStep : List Char → Option (Tok × List Char)
  | [] => none
  | c :: cs => if c == '$' then some (dollarTok cs) else some (.lit c, cs)

/-- Fuel-driven iteration of `tokStep`. -/
def tokenizeF : Nat → List Char → List Tok
  | 0, _ => []
  | fuel + 1, cs =>
    match tokStep cs with
    | none => []
    | some (t, r) => t :: tokenizeF fuel r

/-- The token list of a template (the input length is enough fuel, since
every step consumes at least one character). -/
def tokenize (cs : List Char) : List Tok := tokenizeF cs.length cs

/-- `safe_substitute`'s treatment of one token under a mapping: known
identifiers are replaced by `str(value)`, unknown ones are left as the
original text, `$$` becomes `$`, and an invalid `$` stays. -/
def renderTok (env : List (String × Value)) : Tok → String
  | .lit c => String.singleton c
  | .escaped => "$"
  | .invalid => "$"
  | .named n =>
    match lookupL env n with
    | some v => pyStr v
    | none => "$" ++ n
  | .braced n =>
    match lookupL env n with
    | some v => pyStr v
    | none => "$\x7b" ++ n ++ "\x7d"

/-- Concatenated rendering of a token list. -/
def renderToks (env : List (String × Value)) (toks : List Tok) : String :=
  toks.foldr (fun t acc => renderTok env t ++ acc) ""

/-- `Template(t).safe_substitute(mapping)`: total, never raises on a
missing key. -/
def safeSubstitute (t : String) (env : List (String × Value)) : String :=
  renderToks env (tokenize t.data)

/-- `Template(t).get_identifiers()`: named/braced identifiers in first
occurrence order, duplicates suppressed. -/
def getIdentifiers (t : String) : List String :=
  (tokenize t.data).foldl
    (fun acc tk =>
      match tk with
      | .named n => if acc.contains n then acc else acc ++ [n]
      | .braced n => if acc.contains n then acc else acc ++ [n]
      | _ => acc) []

/-! ### `shlex.split` (POSIX mode, whitespace split) and `shlex.join` -/

/-- The whitespace characters of `shlex`. -/
def shWhite (c : Char) : Bool := c == ' ' || c == '\t' || c == '\r' || c == '\n'

/-- The POSIX lexer of `shlex.split`: `quote` is the currently open quote
character, `inWord` whether a token has started, `cur` its characters so
far, `toks` the finished tokens.  Unterminated quotes and a trailing
escape raise `ValueError`. -/
def shlexSplitAux : List Char → Option Char → Bool → List Char → List String →
    Except Err (List String)
  | [], none, inWord, cur, toks =>
    .ok (toks ++ if inWord then [⟨cur⟩] else [])
  | [], some _, _, _, _ => .error (.valueError "No closing quotation")
  | c :: r, none, inWord, cur, toks =>
    if shWhite c then
      if inWord then shlexSplitAux r none false [] (toks ++ [⟨cur⟩])
      else shlexSplitAux r none false [] toks
    else if c == '\'' || c == '"' then shlexSplitAux r (some c) true cur toks
    else if c == '\\' then
      match r with
      | [] => .error (.valueError "No escaped character")
      | d :: r' => shlexSplitAux r' none true (cur ++ [d]) toks
    else shlexSplitAux r none true (cur ++ [c]) toks
  | c :: r, some q, _, cur, toks =>
    if c == q then shlexSplitAux r none true cur toks
    else if q == '"' && c == '\\' then
      match r with
      | [] => .error (.valueError "No escaped character")
      | d :: r' =>
        if d == '"' || d == '\\' then shlexSplitAux r' (some q) true (cur ++ [d]) toks
        else shlexSplitAux r' (some q) true (cur ++ ['\\', d]) toks
    else shlexSplitAux r (some q) true (cur ++ [c]) toks

/-- `shlex.split(s)` (POSIX, `whitespace_split=True`, no comments). -/
def shlexSplit (s : String) : Except Err (List String) :=
  shlexSplitAux s.data none false [] []

/-- Characters `shlex.quote` leaves unquoted: ASCII letters and digits
plus `_`, `@`, `%`, `+`, `=`, `:`, `,`, `.`, the slash and the hyphen. -/
def shSafe (c : Char) : Bool :=
  c.isAlphanum || c == '_' || c == '@' || c == '%' || c == '+' || c == '=' ||
  c == ':' || c == ',' || c == '.' || c == '/' || c == '-'

/-- `shlex.quote`. -/
def shlexQuote (s : String) : String :=
  if s == "" then "''"
  else if s.data.all shSafe then s
  else "'" ++ ⟨(s.data.map (fun c =>
    if c == '\'' then ['\'', '"', '\'', '"', '\''] else [c])).flatten⟩ ++ "'"

/-- `shlex.join`. -/
def shlexJoin (ts : List String) : String :=
  joinWith " " (ts.map shlexQuote)

/-! ### `base64.b64encode` -/

/-- The base64 alphabet. -/
def b64Alphabet : List Char :=
  "ABCDEFGHIJKLMNOPQRSTUVWXYZabcdefghijklmnopqrstuvwxyz0123456789+/".data

/-- The base64 digit of a 6-bit value. -/
def b64Char (n : Nat) : Char := b64Alphabet.getD n 'A'

/-- Standard base64 of a byte list (bytes modelled as characters with code
points below 256). -/
def toBase64Chars : List Char → List Char
  | [] => []
  | [a] =>
    let x := a.toNat % 256
    [b64Char (x / 4), b64Char (x % 4 * 16), '=', '=']
  | [a, b] =>
    let x := a.toNat % 256
    let y := b.toNat % 256
    [b64Char (x / 4), b64Char (x % 4 * 16 + y / 16), b64Char (y % 16 * 4), '=']
  | a :: b :: c :: rest =>
    let x := a.toNat % 256
    let y := b.toNat % 256
    let z := c.toNat % 256
    b64Char (x / 4) :: b64Char (x % 4 * 16 + y / 16) ::
      b64Char (y % 16 * 4 + z / 64) :: b64Char (z % 64) :: toBase64Chars rest

/-- `to_base64` of `cmd_session.py`: base64-encode and decode to text. -/
def toBase64 (s : String) : String := ⟨toBase64Chars s.data⟩

/-! ### `glob.glob(pattern, root_dir=...)`

The model covers the pattern forms the engine meets: `/`-separated
components that are either literal (no `*`, `?`, `[`) or wildcards
matched against directory entries with `fnmatch` semantics (`*` and `?`;
bracket classes are not modelled and their characters match literally).
A fully applied pattern is kept when `os.path.lexists` accepts the
root-relative, OS-normalised path — exactly how a literal pattern is
checked, and how `..` components slip through. Wildcards do not match
entries starting with `.` unless the component itself starts with `.`. -/

/-- `fnmatch` on characters, with fuel (`*` and `?` wildcards). -/
def fnmatchF : Nat → List Char → List Char → Bool
  | 0, p, s => p.isEmpty && s.isEmpty
  | _ + 1, [], s => s.isEmpty
  | fuel + 1, '*' :: ps, s =>
    fnmatchF fuel ps s ||
      (match s with
       | [] => false
       | _ :: s' => fnmatchF fuel ('*' :: ps) s')
  | fuel + 1, '?' :: ps, s =>
    (match s with
     | [] => false
     | _ :: s' => fnmatchF fuel ps s')
  | fuel + 1, p :: ps, s =>
    (match s with
     | [] => false
     | c :: s' => p == c && fnmatchF fuel ps s')

/-- `fnmatch.fnmatch` (sufficient fuel applied). -/
def fnmatchB (p s : List Char) : Bool :=
  fnmatchF (p.length + s.length + 1) p s

/-- Does a pattern component contain glob magic characters? -/
def hasMagic (s : String) : Bool :=
  s.data.any (fun c => c == '*' || c == '?' || c == '[')

/-- Keep-first deduplication. -/
def dedupAux {α : Type} [BEq α] : List α → List α → List α
  | _, [] => []
  | seen, a :: r =>
    if seen.contains a then dedupAux seen r else a :: dedupAux (a :: seen) r

/-- The entry names directly inside directory `d` (from both stored
directories and files), in storage order, duplicates suppressed. -/
def childNames (fs : Fs) (d : List String) : List String :=
  dedupAux [] ((fs.dirs ++ fs.files.map (·.1)).filterMap (fun p =>
    if startsWithComps d p && p.length == d.length + 1 then p.getLast? else none))

/-- Does a name start with a dot (`glob`'s hidden-entry test)? -/
def headIsDot (s : String) : Bool :=
  match s.data with
  | [] => false
  | c :: _ => c == '.'

/-- Walk the pattern components left to right from `rd`, accumulating the
pattern-shaped relative match `acc`; at the end the match is kept when the
normalised joined path exists. -/
def globCollect (fs : Fs) (rd : List String) (acc : List String) :
    List String → List (List String)
  | [] => if lexists fs (resolveComps (rd ++ acc)) then [acc] else []
  | c :: rest =>
    if hasMagic c then
      ((childNames fs (resolveComps (rd ++ acc))).filter (fun e =>
        fnmatchB c.data e.data && (headIsDot c || !headIsDot e))).flatMap
        (fun e => globCollect fs rd (acc ++ [e]) rest)
    else globCollect fs rd (acc ++ [c]) rest

/-- `glob.glob(pat, root_dir=rd)`: relative match strings. -/
def globGlob (fs : Fs) (rd : List String) (pat : String) : List String :=
  (globCollect fs rd [] (splitPath pat)).map (joinWith "/")

/-! ### Command building (`process_input_item`, `prepare_cmd`) -/

/-- `os.path.abspath`, up to normalisation (unused by any property; it
only feeds the `cwd_abs` template variable). -/
def abspathStr (processCwd p : String) : String :=
  if p.startsWith "/" then p else processCwd ++ "/" ++ p

/-- `CmdSession.process_input_item`: a `None` item becomes `""`; an item
without identifiers passes through; otherwise its identifiers are
resolved (possibly writing files / raising) and substituted together
with the run-local environment, the resolved values taking priority. -/
def processInputItem (cfg : CmdConfig) (dw jobId : String)
    (kw : List (String × Value)) (item : Option String)
    (cmdEnv : List (String × Value)) (st : St) : St × Except Err String :=
  match item with
  | none => (st, .ok "")
  | some s =>
    if (getIdentifiers s).isEmpty then (st, .ok s)
    else
      match getParams cfg dw jobId kw (getIdentifiers s) st with
      | (st1, .error e) => (st1, .error e)
      | (st1, .ok vals) => (st1, .ok (safeSubstitute s (vals ++ cmdEnv)))

/-- The loop of `prepare_cmd` over `cmd_config['command']`. -/
def prepareItems (cfg : CmdConfig) (dw jobId : String)
    (kw : List (String × Value)) (cmdEnv : List (String × Value)) :
    List (Option String) → St → St × Except Err (List String)
  | [], st => (st, .ok [])
  | it :: rest, st =>
    match processInputItem cfg dw jobId kw it cmdEnv st with
    | (st1, .error e) => (st1, .error e)
    | (st1, .ok s) =>
      match prepareItems cfg dw jobId kw cmdEnv rest st1 with
      | (st2, res) => (st2, res.map (fun l => s :: l))

/-- `shlex.split` applied to every rendered item, concatenated. -/
def splitAll : List String → Except Err (List String)
  | [] => .ok []
  | s :: rest =>
    match shlexSplit s with
    | .error e => .error e
    | .ok ts =>
      match splitAll rest with
      | .error e => .error e
      | .ok ts' => .ok (ts ++ ts')

/-- `CmdSession.prepare_cmd`: render every item, shell-tokenize the
results, and re-join them into one quoted command line. -/
def prepareCmd (cfg : CmdConfig) (dw processCwd jobId : String)
    (kw : List (String × Value)) (st : St) : St × Except Err String :=
  match prepareItems cfg dw jobId kw
      [("cwd", Value.vstr (jobPathStr cfg dw jobId)),
       ("cwd_abs", Value.vstr (abspathStr processCwd (jobPathStr cfg dw jobId)))]
      cfg.command st with
  | (st1, .error e) => (st1, .error e)
  | (st1, .ok items) =>
    match splitAll items with
    | .error e => (st1, .error e)
    | .ok toks => (st1, .ok (shlexJoin toks))

/-! ### Execution and result assembly (`CmdSession.execute`) -/

/-- What the finished subprocess produced: captured stdout/stderr bytes,
the return code, and the measured wall-clock duration. -/
structure SubprocResult where
  stdout : String
  stderr : String
  returncode : Int
  usedTime : Nat
deriving DecidableEq, Repr

/-- One structured payload of the result map (`fielname` reproduces the
source's key, set only for `file_list` entries). -/
structure Payload where
  body : String
  fielname : Option String := none
  mimetype : String
  encoding : String
deriving DecidableEq, Repr

/-- One value of the result map. -/
inductive RetVal where
  | rawStr (s : String)
  | payload (p : Payload)
  | payloadList (l : List Payload)
deriving DecidableEq, Repr

/-- The glob matches of a `file_list` return entry (`if item.get('glob')`:
an absent or empty pattern matches nothing). -/
def fileListMatches (cfg : CmdConfig) (dw jobId : String) (fs : Fs)
    (d : RetDict) : List String :=
  match d.glob with
  | some g => if g == "" then [] else globGlob fs (scratchComps cfg dw jobId) g
  | none => []

/-- The normalised paths `execute` opens for a `file_list` entry:
`get_job_file_path(filename)` for each glob match. -/
def fileListResolvedPaths (cfg : CmdConfig) (dw jobId : String) (fs : Fs)
    (d : RetDict) : List (List String) :=
  (fileListMatches cfg dw jobId fs d).map
    (fun m => pathComps (jobFilePathStr cfg dw jobId m))

/-- Read and encode every glob match of a `file_list` entry, in match
order. -/
def readPayloads (cfg : CmdConfig) (dw jobId : String) (fs : Fs)
    (d : RetDict) : List String → Except Err (List Payload)
  | [] => .ok []
  | m :: rest =>
    match readFileE fs (pathComps (jobFilePathStr cfg dw jobId m)) with
    | .error e => .error e
    | .ok content =>
      match readPayloads cfg dw jobId fs d rest with
      | .error e => .error e
      | .ok ps =>
        .ok (⟨toBase64 content, some m, d.mimetype.getD "", d.encoding.getD "base64"⟩ :: ps)

/-- The result-map entries contributed by one `return` item.  A dict item
runs through `if type == 'file'` and then the separate
`if type in ['stdout','stderr'] / elif type == 'file_list'` chain, as in
the source; unknown strings and unknown dict types contribute nothing. -/
def assembleItem (cfg : CmdConfig) (dw jobId : String) (fs : Fs)
    (stdout stderr : String) : RetItem → Except Err (List (String × RetVal))
  | .str s =>
    if s == "stdout" then .ok [("stdout", .rawStr stdout)]
    else if s == "stderr" then .ok [("stderr", .rawStr stderr)]
    else .ok []
  | .dict d =>
    let first :
        Except Err (List (String × RetVal)) :=
      if d.type == "file" then
        match d.filename with
        | none => .error (.keyError "filename")
        | some fn =>
          match readFileE fs (pathComps (jobFilePathStr cfg dw jobId fn)) with
          | .error e => .error e
          | .ok content =>
            .ok [(d.name, .payload
              ⟨toBase64 content, none, d.mimetype.getD "", d.encoding.getD "base64"⟩)]
      else .ok []
    match first with
    | .error e => .error e
    | .ok fst =>
      if d.type == "stdout" || d.type == "stderr" then
        .ok (fst ++ [(d.name, .payload
          ⟨toBase64 (if d.type == "stdout" then stdout else stderr), none,
           d.mimetype.getD "", d.encoding.getD "base64"⟩)])
      else if d.type == "file_list" then
        match readPayloads cfg dw jobId fs d (fileListMatches cfg dw jobId fs d) with
        | .error e => .error e
        | .ok pl => .ok (fst ++ [(d.name, .payloadList pl)])
      else .ok fst

/-- The `for item in self.cmd_config.get('return', [])` loop. -/
def assembleLoop (cfg : CmdConfig) (dw jobId : String) (fs : Fs)
    (stdout stderr : String) : List RetItem → Except Err (List (String × RetVal))
  | [] => .ok []
  | it :: rest =>
    match assembleItem cfg dw jobId fs stdout stderr it with
    | .error e => .error e
    | .ok vs =>
      match assembleLoop cfg dw jobId fs stdout stderr rest with
      | .error e => .error e
      | .ok vs' => .ok (vs ++ vs')

/-- The assembled result map, ending with `ret['job_id'] = self.job_id`. -/
def assembleReturns (cfg : CmdConfig) (dw jobId : String) (fs : Fs)
    (stdout stderr : String) : Except Err (List (String × RetVal)) :=
  match assembleLoop cfg dw jobId fs stdout stderr cfg.ret with
  | .error e => .error e
  | .ok vs => .ok (vs ++ [("job_id", .rawStr jobId)])

/-- `CmdSession.execute`: spawn the command line (recording the
invocation), and — unless the spawn itself failed — emit exactly one
structured log record with `job_id`, `returncode`, the measured duration
and the decoded stderr, then assemble the declared return values. -/
def executeFn (cfg : CmdConfig) (dw jobId : String)
    (oracle : Option SubprocResult) (cmd : String) (st : St) :
    St × Except Err (List (String × RetVal)) :=
  match oracle with
  | none => ({ st with events := st.events ++ [.subproc cmd] }, .error .spawnError)
  | some r =>
    ({ st with events := (st.events ++ [.subproc cmd]) ++
        [.execLog ⟨jobId, r.returncode, r.usedTime, r.stderr⟩] },
     assembleReturns cfg dw jobId st.fs r.stdout r.stderr)

/-! ### The run (`CmdSession.run` with `job_context`) -/

/-- The body of `run` inside the job context: parameter pre-resolution,
command construction, the command log record, and execution. -/
def runBody (cfg : CmdConfig) (dw processCwd jobId : String)
    (oracle : Option SubprocResult) (kw : List (String × Value)) (st : St) :
    St × Except Err (List (String × RetVal)) :=
  match preprocessParams cfg dw jobId kw cfg.params st with
  | (st1, .error e) => (st1, .error e)
  | (st1, .ok _) =>
    match prepareCmd cfg dw processCwd jobId kw st1 with
    | (st2, .error e) => (st2, .error e)
    | (st2, .ok cmd) =>
      executeFn cfg dw jobId oracle cmd
        { st2 with events := st2.events ++ [.cmdLog jobId cmd] }

/-- `CmdSession.run`: `job_context` creates the scratch directory inside
the `try`, runs the body, and — on success or on any exception,
including a failure of the directory creation itself —
`clean_job_path` removes the scratch directory in the `finally`. -/
def runFn (cfg : CmdConfig) (dw processCwd jobId : String)
    (oracle : Option SubprocResult) (kw : List (String × Value)) (st0 : St) :
    St × Except Err (Bool × List (String × RetVal)) :=
  match mkdirsE st0.fs (scratchComps cfg dw jobId) with
  | .error e =>
    ({ st0 with fs := rmtreeFs st0.fs (scratchComps cfg dw jobId) }, .error e)
  | .ok fs1 =>
    match runBody cfg dw processCwd jobId oracle kw { st0 with fs := fs1 } with
    | (st2, res) =>
      ({ st2 with fs := rmtreeFs st2.fs (scratchComps cfg dw jobId) },
       res.map (fun v => (true, v)))

/-! ## Infrastructure lemmas -/

theorem contains_true_iff {α : Type} [BEq α] [LawfulBEq α] {l : List α} {a : α} :
    l.contains a = true ↔ a ∈ l := List.elem_iff

theorem startsWithComps_self : ∀ p : List String, startsWithComps p p = true
  | [] => rfl
  | _ :: p => by simp [startsWithComps, startsWithComps_self p]

theorem startsWithComps_append (p r : List String) :
    startsWithComps p (p ++ r) = true := by
  induction p with
  | nil => rfl
  | cons a p ih => simp [startsWithComps, ih]

theorem startsWithComps_iff (p q : List String) :
    startsWithComps p q = true ↔ ∃ r, q = p ++ r := by
  induction p generalizing q with
  | nil => simp [startsWithComps]
  | cons a p ih =>
    cases q with
    | nil =>
      simp only [startsWithComps, Bool.false_eq_true, false_iff]
      rintro ⟨r, hr⟩
      cases hr
    | cons b q =>
      simp only [startsWithComps, Bool.and_eq_true, beq_iff_eq, ih]
      constructor
      · rintro ⟨rfl, r, rfl⟩
        exact ⟨r, rfl⟩
      · rintro ⟨r, hr⟩
        cases hr
        exact ⟨rfl, r, rfl⟩

theorem writeFileE_ok_dirs {fs fs' : Fs} {p : List String} {c : String}
    (h : writeFileE fs p c = .ok fs') : fs'.dirs = fs.dirs := by
  unfold writeFileE at h
  split at h
  · simp at h
  · split at h
    · simp at h
    · cases h
      rfl

theorem mkdirsE_ok_mem {fs fs' : Fs} {p : List String}
    (h : mkdirsE fs p = .ok fs') (hne : p ≠ []) : fs'.dirs.contains p = true := by
  unfold mkdirsE at h
  split at h
  · simp at h
  · cases h
    have hmem : p ∈ prefixesOf p := by
      have hlen : 0 < p.length := List.length_pos.mpr hne
      have hrange : p.length - 1 ∈ List.range p.length := by
        simp only [List.mem_range]
        omega
      refine List.mem_map.mpr ⟨p.length - 1, hrange, ?_⟩
      have hs : p.length - 1 + 1 = p.length := by omega
      rw [hs, List.take_length]
    rw [contains_true_iff]
    by_cases hd : p ∈ fs.dirs
    · exact List.mem_append.mpr (Or.inl hd)
    · have hcf : fs.dirs.contains p = false := by
        cases hcc : fs.dirs.contains p
        · rfl
        · exact absurd (contains_true_iff.mp hcc) hd
      refine List.mem_append.mpr (Or.inr (List.mem_filter.mpr ⟨hmem, ?_⟩))
      rw [hcf]
      rfl

/-- `get_params` never creates or removes directories. -/
theorem getParams_dirs (cfg : CmdConfig) (dw jid : String) (kw : List (String × Value)) :
    ∀ (names : List String) (st : St),
      (getParams cfg dw jid kw names st).1.fs.dirs = st.fs.dirs := by
  intro names
  induction names with
  | nil => exact fun _ => rfl
  | cons n rest ih =>
    intro st
    unfold getParams
    split
    next v hC =>
      split
      next st1 res hg =>
        have h := ih st
        rw [hg] at h
        exact h
    next hC =>
      split
      next hP =>
        split
        next v hK =>
          split
          next st1 res hg =>
            have h := ih { st with cache := (n, v) :: st.cache }
            rw [hg] at h
            exact h
        next hK => exact ih st
      next ps hP =>
        split
        next hreq => rfl
        next hreq =>
          split
          next hty =>
            split
            next e hw => rfl
            next fs' hw =>
              split
              next st1 res hg =>
                have h := ih { st with fs := fs', cache := (n, Value.vstr (paramFilename ps n)) :: st.cache }
                rw [hg] at h
                exact h.trans (writeFileE_ok_dirs hw)
          next hty =>
            split
            next st1 res hg =>
              have h := ih { st with cache := (n, kwGet kw n) :: st.cache }
              rw [hg] at h
              exact h

/-- `get_params` never logs. -/
theorem getParams_events (cfg : CmdConfig) (dw jid : String) (kw : List (String × Value)) :
    ∀ (names : List String) (st : St),
      (getParams cfg dw jid kw names st).1.events = st.events := by
  intro names
  induction names with
  | nil => exact fun _ => rfl
  | cons n rest ih =>
    intro st
    unfold getParams
    split
    next v hC =>
      split
      next st1 res hg =>
        have h := ih st
        rw [hg] at h
        exact h
    next hC =>
      split
      next hP =>
        split
        next v hK =>
          split
          next st1 res hg =>
            have h := ih { st with cache := (n, v) :: st.cache }
            rw [hg] at h
            exact h
        next hK => exact ih st
      next ps hP =>
        split
        next hreq => rfl
        next hreq =>
          split
          next hty =>
            split
            next e hw => rfl
            next fs' hw =>
              split
              next st1 res hg =>
                have h := ih { st with fs := fs', cache := (n, Value.vstr (paramFilename ps n)) :: st.cache }
                rw [hg] at h
                exact h
          next hty =>
            split
            next st1 res hg =>
              have h := ih { st with cache := (n, kwGet kw n) :: st.cache }
              rw [hg] at h
              exact h

theorem preprocessParams_dirs (cfg : CmdConfig) (dw jid : String)
    (kw : List (String × Value)) :
    ∀ (l : List (String × ParamSpec)) (st : St),
      (preprocessParams cfg dw jid kw l st).1.fs.dirs = st.fs.dirs := by
  intro l
  induction l with
  | nil => exact fun _ => rfl
  | cons p rest ih =>
    intro st
    obtain ⟨n, ps⟩ := p
    unfold preprocessParams
    split
    next st1 e hg =>
      have h := getParams_dirs cfg dw jid kw [n] st
      rw [hg] at h
      exact h
    next st1 u hg =>
      have h := getParams_dirs cfg dw jid kw [n] st
      rw [hg] at h
      exact (ih st1).trans h

theorem preprocessParams_events (cfg : CmdConfig) (dw jid : String)
    (kw : List (String × Value)) :
    ∀ (l : List (String × ParamSpec)) (st : St),
      (preprocessParams cfg dw jid kw l st).1.events = st.events := by
  intro l
  induction l with
  | nil => exact fun _ => rfl
  | cons p rest ih =>
    intro st
    obtain ⟨n, ps⟩ := p
    unfold preprocessParams
    split
    next st1 e hg =>
      have h := getParams_events cfg dw jid kw [n] st
      rw [hg] at h
      exact h
    next st1 u hg =>
      have h := getParams_events cfg dw jid kw [n] st
      rw [hg] at h
      exact (ih st1).trans h

theorem processInputItem_dirs (cfg : CmdConfig) (dw jid : String)
    (kw : List (String × Value)) (item : Option String)
    (cmdEnv : List (String × Value)) (st : St) :
    (processInputItem cfg dw jid kw item cmdEnv st).1.fs.dirs = st.fs.dirs := by
  unfold processInputItem
  split
  · rfl
  next s =>
    split
    · rfl
    · split
      next st1 e hg =>
        have h := getParams_dirs cfg dw jid kw (getIdentifiers s) st
        rw [hg] at h
        exact h
      next st1 vals hg =>
        have h := getParams_dirs cfg dw jid kw (getIdentifiers s) st
        rw [hg] at h
        exact h

theorem prepareItems_dirs (cfg : CmdConfig) (dw jid : String)
    (kw : List (String × Value)) (cmdEnv : List (String × Value)) :
    ∀ (items : List (Option String)) (st : St),
      (prepareItems cfg dw jid kw cmdEnv items st).1.fs.dirs = st.fs.dirs := by
  intro items
  induction items with
  | nil => exact fun _ => rfl
  | cons it rest ih =>
    intro st
    unfold prepareItems
    split
    next st1 e hg =>
      have h := processInputItem_dirs cfg dw jid kw it cmdEnv st
      rw [hg] at h
      exact h
    next st1 s hg =>
      have h := processInputItem_dirs cfg dw jid kw it cmdEnv st
      rw [hg] at h
      split
      next st2 res hg2 =>
        have h2 := ih st1
        rw [hg2] at h2
        exact h2.trans h

theorem prepareCmd_dirs (cfg : CmdConfig) (dw pcwd jid : String)
    (kw : List (String × Value)) (st : St) :
    (prepareCmd cfg dw pcwd jid kw st).1.fs.dirs = st.fs.dirs := by
  unfold prepareCmd
  split
  next st1 e hg =>
    have h := prepareItems_dirs cfg dw jid kw
      [("cwd", Value.vstr (jobPathStr cfg dw jid)),
       ("cwd_abs", Value.vstr (abspathStr pcwd (jobPathStr cfg dw jid)))] cfg.command st
    rw [hg] at h
    exact h
  next st1 items hg =>
    have h := prepareItems_dirs cfg dw jid kw
      [("cwd", Value.vstr (jobPathStr cfg dw jid)),
       ("cwd_abs", Value.vstr (abspathStr pcwd (jobPathStr cfg dw jid)))] cfg.command st
    rw [hg] at h
    split
    · exact h
    · exact h

theorem executeFn_fs (cfg : CmdConfig) (dw jid : String)
    (oracle : Option SubprocResult) (cmd : String) (st : St) :
    (executeFn cfg dw jid oracle cmd st).1.fs = st.fs := by
  cases oracle <;> rfl

theorem runBody_dirs (cfg : CmdConfig) (dw pcwd jid : String)
    (oracle : Option SubprocResult) (kw : List (String × Value)) (st : St) :
    (runBody cfg dw pcwd jid oracle kw st).1.fs.dirs = st.fs.dirs := by
  unfold runBody
  split
  next st1 e hg =>
    have h := preprocessParams_dirs cfg dw jid kw cfg.params st
    rw [hg] at h
    exact h
  next st1 u hg =>
    have h := preprocessParams_dirs cfg dw jid kw cfg.params st
    rw [hg] at h
    split
    next st2 e hg2 =>
      have h2 := prepareCmd_dirs cfg dw pcwd jid kw st1
      rw [hg2] at h2
      exact h2.trans h
    next st2 cmd hg2 =>
      have h2 := prepareCmd_dirs cfg dw pcwd jid kw st1
      rw [hg2] at h2
      have h3 := executeFn_fs cfg dw jid oracle cmd
        { st2 with events := st2.events ++ [Event.cmdLog jid cmd] }
      rw [h3]
      exact h2.trans h

/-- Nothing at or below `p` exists in `fs`. -/
def clearBelow (fs : Fs) (p : List String) : Bool :=
  fs.dirs.all (fun d => !startsWithComps p d) &&
  fs.files.all (fun f => !startsWithComps p f.1)

theorem rmtreeFs_clear {fs : Fs} {p : List String}
    (h : fs.dirs.contains p = true) : clearBelow (rmtreeFs fs p) p = true := by
  unfold rmtreeFs clearBelow
  rw [h]
  simp only [if_true, List.all_eq_true, Bool.and_eq_true]
  constructor
  · intro d hd
    simpa using (List.mem_filter.mp hd).2
  · intro f hf
    simpa using (List.mem_filter.mp hf).2

theorem rmtreeFs_absent {fs : Fs} {p : List String}
    (h : fs.dirs.contains p = false) : rmtreeFs fs p = fs := by
  unfold rmtreeFs
  rw [h]
  simp

/-! ## C1: guaranteed scratch-directory cleanup -/

/-- C1: for every run of `CmdSession.run` — returning successfully or
raising at any stage (parameter resolution, command building, execution,
result assembly, even creation of the scratch directory itself) — the
job's scratch directory is removed before `run` finishes, and the removal
(`shutil.rmtree(..., ignore_errors=True)`) tolerates a directory that was
never created or is already absent.  The hypotheses state that the fresh
`uuid4` job id gives a nonempty scratch path with nothing already at or
below it. -/
theorem run_scratch_cleanup (cfg : CmdConfig) (dw processCwd jobId : String)
    (oracle : Option SubprocResult) (kw : List (String × Value)) (st0 : St)
    (hfresh : clearBelow st0.fs (scratchComps cfg dw jobId) = true)
    (hne : scratchComps cfg dw jobId ≠ []) :
    clearBelow (runFn cfg dw processCwd jobId oracle kw st0).1.fs
        (scratchComps cfg dw jobId) = true
    ∧ ∀ fs : Fs, fs.dirs.contains (scratchComps cfg dw jobId) = false →
        rmtreeFs fs (scratchComps cfg dw jobId) = fs := by
  refine ⟨?_, fun fs h => rmtreeFs_absent h⟩
  unfold runFn
  split
  next e hmk =>
    have hnc : st0.fs.dirs.contains (scratchComps cfg dw jobId) = false := by
      cases hcc : st0.fs.dirs.contains (scratchComps cfg dw jobId)
      · rfl
      · exfalso
        have hmem := contains_true_iff.mp hcc
        unfold clearBelow at hfresh
        simp only [Bool.and_eq_true, List.all_eq_true] at hfresh
        have hx := hfresh.1 _ hmem
        rw [startsWithComps_self] at hx
        simp at hx
    show clearBelow (rmtreeFs st0.fs (scratchComps cfg dw jobId))
        (scratchComps cfg dw jobId) = true
    rw [rmtreeFs_absent hnc]
    exact hfresh
  next fs1 hmk =>
    split
    next st2 res hbody =>
      show clearBelow (rmtreeFs st2.fs (scratchComps cfg dw jobId))
          (scratchComps cfg dw jobId) = true
      apply rmtreeFs_clear
      have hb := runBody_dirs cfg dw processCwd jobId oracle kw { st0 with fs := fs1 }
      rw [hbody] at hb
      rw [hb]
      exact mkdirsE_ok_mem hmk hne

theorem run_scratch_cleanup_witness :
    clearBelow (initSt ⟨[["w"]], []⟩).fs (scratchComps { cwd := some "w" } "d" "J") = true
    ∧ scratchComps { cwd := some "w" } "d" "J" ≠ []
    ∧ (clearBelow (runFn { cwd := some "w" } "d" "p" "J" none [] (initSt ⟨[["w"]], []⟩)).1.fs
        (scratchComps { cwd := some "w" } "d" "J") = true
      ∧ ∀ fs : Fs, fs.dirs.contains (scratchComps { cwd := some "w" } "d" "J") = false →
          rmtreeFs fs (scratchComps { cwd := some "w" } "d" "J") = fs) :=
  ⟨by decide, by decide,
   run_scratch_cleanup { cwd := some "w" } "d" "p" "J" none [] (initSt ⟨[["w"]], []⟩)
     (by decide) (by decide)⟩

/-! ## C7: executor logging and tolerance of non-zero return codes -/

/-- C7: for every subprocess completion — any return code, including
non-zero — `execute` appends exactly one structured log record carrying
`job_id`, the return code, the measured wall-clock duration and the
decoded stderr text; what the layer returns is exactly the result
assembly (so no error is raised by the executor itself for a non-zero
code), and whether an error occurs is unchanged under any other return
code. -/
theorem execute_logs_once_any_returncode (cfg : CmdConfig) (dw jobId cmd : String)
    (st : St) (r : SubprocResult) (rc' : Int) :
    (executeFn cfg dw jobId (some r) cmd st).1.events
      = st.events ++ [.subproc cmd, .execLog ⟨jobId, r.returncode, r.usedTime, r.stderr⟩]
    ∧ (executeFn cfg dw jobId (some r) cmd st).2
      = assembleReturns cfg dw jobId st.fs r.stdout r.stderr
    ∧ (executeFn cfg dw jobId (some { r with returncode := rc' }) cmd st).2.isOk
      = (executeFn cfg dw jobId (some r) cmd st).2.isOk := by
  refine ⟨?_, rfl, rfl⟩
  show (st.events ++ [Event.subproc cmd]) ++
      [Event.execLog ⟨jobId, r.returncode, r.usedTime, r.stderr⟩] = _
  rw [List.append_assoc]
  rfl

/-! ## Path algebra -/

theorem string_data_append (a b : String) : (a ++ b).data = a.data ++ b.data := rfl

theorem splitChars_ne_nil (sep : Char) : ∀ l : List Char, splitChars sep l ≠ []
  | [] => by simp [splitChars]
  | c :: r => by
    unfold splitChars
    split
    · simp
    · split <;> simp

theorem splitChars_append_sep (sep : Char) (A B : List Char) :
    splitChars sep (A ++ sep :: B) = splitChars sep A ++ splitChars sep B := by
  induction A with
  | nil => simp [splitChars]
  | cons c A ih =>
    by_cases hc : (c == sep) = true
    · simp [splitChars, hc, ih]
    · obtain ⟨p0, ps0, hA⟩ : ∃ p0 ps0, splitChars sep A = p0 :: ps0 := by
        cases h : splitChars sep A with
        | nil => exact absurd h (splitChars_ne_nil sep A)
        | cons a b => exact ⟨a, b, rfl⟩
      simp [splitChars, hc, ih, hA]

theorem splitChars_no_sep (sep : Char) (l : List Char) (h : sep ∉ l) :
    splitChars sep l = [l] := by
  induction l with
  | nil => rfl
  | cons c r ih =>
    have hc : (c == sep) = false := by
      rw [beq_eq_false_iff_ne]
      intro hcs
      exact h (hcs ▸ List.mem_cons_self c r)
    have hr : sep ∉ r := fun hm => h (List.mem_cons_of_mem c hm)
    simp [splitChars, hc, ih hr]

theorem splitPath_append_slash (x y : String) :
    splitPath (x ++ "/" ++ y) = splitPath x ++ splitPath y := by
  unfold splitPath
  have hd : (x ++ "/" ++ y).data = x.data ++ '/' :: y.data := by
    rw [string_data_append, string_data_append, List.append_assoc]
    rfl
  rw [hd, splitChars_append_sep, List.map_append]

theorem splitPath_no_slash (fn : String) (h : '/' ∉ fn.data) : splitPath fn = [fn] := by
  unfold splitPath
  rw [splitChars_no_sep '/' fn.data h]
  rfl

theorem resolveComps_snoc (a : List String) (c : String)
    (h1 : c ≠ "") (h2 : c ≠ ".") (h3 : c ≠ "..") :
    resolveComps (a ++ [c]) = resolveComps a ++ [c] := by
  unfold resolveComps
  rw [List.foldl_append]
  simp [h1, h2, h3]

/-- A path component usable as a plain entry name: nonempty, not a dot
component, and without a separator. -/
def safeName (c : String) : Bool :=
  !(c.data.contains '/') && !(c == "") && !(c == ".") && !(c == "..")

theorem safeName_spec {c : String} (h : safeName c = true) :
    '/' ∉ c.data ∧ c ≠ "" ∧ c ≠ "." ∧ c ≠ ".." := by
  unfold safeName at h
  simp only [Bool.and_eq_true, Bool.not_eq_true'] at h
  obtain ⟨⟨⟨hs, h1⟩, h2⟩, h3⟩ := h
  refine ⟨?_, ?_, ?_, ?_⟩
  · intro hm
    rw [show (c.data.contains '/') = true from List.elem_iff.mpr hm] at hs
    cases hs
  · exact fun he => by rw [he] at h1; simp at h1
  · exact fun he => by rw [he] at h2; simp at h2
  · exact fun he => by rw [he] at h3; simp at h3

/-- `get_job_file_path` of a safe filename lands directly inside the
scratch directory. -/
theorem jobFileComps (cfg : CmdConfig) (dw jid fn : String)
    (h : safeName fn = true) :
    pathComps (jobFilePathStr cfg dw jid fn) = scratchComps cfg dw jid ++ [fn] := by
  obtain ⟨hs, h1, h2, h3⟩ := safeName_spec h
  unfold jobFilePathStr scratchComps
  unfold pathComps
  rw [splitPath_append_slash, splitPath_no_slash fn hs]
  exact resolveComps_snoc _ fn h1 h2 h3

/-- The scratch directory of a safe job id sits directly inside the
(configured or default) base directory; in particular it is nonempty. -/
theorem scratchComps_eq (cfg : CmdConfig) (dw jid : String)
    (h : safeName jid = true) :
    scratchComps cfg dw jid = pathComps (rstripSlash (cwdBase cfg dw)) ++ [jid] := by
  obtain ⟨hs, h1, h2, h3⟩ := safeName_spec h
  unfold scratchComps jobPathStr pathComps
  rw [splitPath_append_slash, splitPath_no_slash jid hs]
  exact resolveComps_snoc _ jid h1 h2 h3

theorem scratchComps_ne_nil (cfg : CmdConfig) (dw jid : String)
    (h : safeName jid = true) : scratchComps cfg dw jid ≠ [] := by
  rw [scratchComps_eq cfg dw jid h]
  simp

/-! ## Single-step facts about `get_params` (shared helpers) -/

theorem lookupL_cons_self {α : Type} (n : String) (v : α) (c : List (String × α)) :
    lookupL ((n, v) :: c) n = some v := by
  simp [lookupL]

theorem lookupL_cons_ne {α : Type} (k n : String) (v : α) (c : List (String × α))
    (h : k ≠ n) : lookupL ((k, v) :: c) n = lookupL c n := by
  have : (k == n) = false := by rw [beq_eq_false_iff_ne]; exact h
  simp [lookupL, this]

/-- Resolving an already-cached name returns the cached value and leaves
the state untouched, for any caller values. -/
theorem getParams_cached (cfg : CmdConfig) (dw jid : String)
    (kw : List (String × Value)) (st : St) (n : String) (v : Value)
    (hC : lookupL st.cache n = some v) :
    getParams cfg dw jid kw [n] st = (st, .ok [(n, v)]) := by
  unfold getParams
  rw [hC]
  rfl

/-- Resolving an uncached, declared, non-file parameter that passes the
required check caches and returns `kwargs.get(name)`. -/
theorem getParams_plain (cfg : CmdConfig) (dw jid : String)
    (kw : List (String × Value)) (st : St) (n : String) (ps : ParamSpec)
    (hC : lookupL st.cache n = none)
    (hP : lookupL cfg.params n = some ps)
    (hreq : (ps.required && (kwGet kw n == Value.vnone)) = false)
    (hty : (ps.type == some "file") = false) :
    getParams cfg dw jid kw [n] st =
      ({ st with cache := (n, kwGet kw n) :: st.cache }, .ok [(n, kwGet kw n)]) := by
  simp only [getParams, hC, hP, hreq, hty, Bool.false_eq_true, if_false]
  rfl

/-- Resolving an uncached, declared file parameter that passes the
required check writes the file and resolves to the relative filename. -/
theorem getParams_file (cfg : CmdConfig) (dw jid : String)
    (kw : List (String × Value)) (st : St) (n : String) (ps : ParamSpec) (fs' : Fs)
    (hC : lookupL st.cache n = none)
    (hP : lookupL cfg.params n = some ps)
    (hreq : (ps.required && (kwGet kw n == Value.vnone)) = false)
    (hty : (ps.type == some "file") = true)
    (hw : writeFileE st.fs (pathComps (jobFilePathStr cfg dw jid (paramFilename ps n)))
        (fileContent (kwGet kw n)) = .ok fs') :
    getParams cfg dw jid kw [n] st =
      ({ st with fs := fs', cache := (n, Value.vstr (paramFilename ps n)) :: st.cache },
       .ok [(n, Value.vstr (paramFilename ps n))]) := by
  simp only [getParams, hC, hP, hreq, hty, hw, Bool.false_eq_true, if_false, if_true]
  rfl

/-- Resolving an uncached, declared, required parameter for which the
caller supplied no value raises the named `ValueError` and leaves the
state untouched. -/
theorem getParams_missing (cfg : CmdConfig) (dw jid : String)
    (kw : List (String × Value)) (st : St) (n : String) (ps : ParamSpec)
    (hC : lookupL st.cache n = none)
    (hP : lookupL cfg.params n = some ps)
    (hreq : (ps.required && (kwGet kw n == Value.vnone)) = true) :
    getParams cfg dw jid kw [n] st =
      (st, .error (.valueError ("Missing required param: " ++ n))) := by
  simp only [getParams, hC, hP, hreq, if_true]

/-- A write of a safe filename into an existing scratch directory
succeeds and appends the file entry. -/
theorem writeFileE_ok_of (fs : Fs) (p : List String) (c : String)
    (hnd : fs.dirs.contains p = false)
    (hpar : fs.dirs.contains p.dropLast = true) :
    writeFileE fs p c =
      .ok { fs with files := (fs.files.filter (fun f => f.1 ≠ p)) ++ [(p, c)] } := by
  unfold writeFileE
  rw [hnd, hpar]
  rfl

/-! ## C3: memoised resolution is idempotent and side-effect free -/

/-- C3: once a parameter name has produced a value within a run, every
later resolution of that name returns the identical cached value and
leaves the session state (cache, filesystem, events) completely
unchanged, whatever caller values are supplied the second time — in
particular no file is re-written. -/
theorem resolution_idempotent (cfg : CmdConfig) (dw jid : String)
    (kw kw₂ : List (String × Value)) (st st' : St) (n : String)
    (vs : List (String × Value)) (v : Value)
    (h1 : getParams cfg dw jid kw [n] st = (st', .ok vs))
    (hv : lookupL vs n = some v) :
    getParams cfg dw jid kw₂ [n] st' = (st', .ok [(n, v)]) := by
  have hcache : lookupL st'.cache n = some v := by
    unfold getParams at h1
    split at h1
    next w hC =>
      have h1' : ((st, Except.ok [(n, w)]) : St × Except Err (List (String × Value)))
          = (st', .ok vs) := h1
      injection h1' with ha hb
      injection hb with hb'
      subst ha
      rw [← hb'] at hv
      rw [lookupL_cons_self] at hv
      injection hv with hv'
      rw [hC, hv']
    next hC =>
      split at h1
      next hP =>
        split at h1
        next w hK =>
          have h1' : (({ st with cache := (n, w) :: st.cache }, Except.ok [(n, w)]) : St × Except Err (List (String × Value))) = (st', .ok vs) := h1
          injection h1' with ha hb
          injection hb with hb'
          subst ha
          rw [← hb'] at hv
          rw [lookupL_cons_self] at hv
          injection hv with hv'
          show lookupL ((n, w) :: st.cache) n = some v
          rw [lookupL_cons_self, hv']
        next hK =>
          have h1' : ((st, Except.ok ([] : List (String × Value)))
              : St × Except Err (List (String × Value))) = (st', .ok vs) := h1
          injection h1' with ha hb
          injection hb with hb'
          rw [← hb'] at hv
          simp [lookupL] at hv
      next ps hP =>
        split at h1
        next hreq => simp at h1
        next hreq =>
          split at h1
          next hty =>
            split at h1
            next e hw => simp at h1
            next fs' hw =>
              have h1' : (({ st with fs := fs', cache := (n, Value.vstr (paramFilename ps n)) :: st.cache }, Except.ok [(n, Value.vstr (paramFilename ps n))]) : St × Except Err (List (String × Value))) = (st', .ok vs) := h1
              injection h1' with ha hb
              injection hb with hb'
              subst ha
              rw [← hb'] at hv
              rw [lookupL_cons_self] at hv
              injection hv with hv'
              show lookupL ((n, Value.vstr (paramFilename ps n)) :: st.cache) n = some v
              rw [lookupL_cons_self, hv']
          next hty =>
            have h1' : (({ st with cache := (n, kwGet kw n) :: st.cache }, Except.ok [(n, kwGet kw n)]) : St × Except Err (List (String × Value))) = (st', .ok vs) := h1
            injection h1' with ha hb
            injection hb with hb'
            subst ha
            rw [← hb'] at hv
            rw [lookupL_cons_self] at hv
            injection hv with hv'
            show lookupL ((n, kwGet kw n) :: st.cache) n = some v
            rw [lookupL_cons_self, hv']
  exact getParams_cached cfg dw jid kw₂ st' n v hcache

theorem resolution_idempotent_witness :
    getParams { cwd := some "w", params := [("p", ⟨false, none, none⟩)] } "d" "J"
        [("p", Value.vstr "x")] ["p"] (initSt ⟨[["w"], ["w", "J"]], []⟩)
      = ({ fs := ⟨[["w"], ["w", "J"]], []⟩, cache := [("p", Value.vstr "x")], events := [] },
         .ok [("p", Value.vstr "x")])
    ∧ getParams { cwd := some "w", params := [("p", ⟨false, none, none⟩)] } "d" "J"
        [("p", Value.vstr "OTHER")] ["p"]
        { fs := ⟨[["w"], ["w", "J"]], []⟩, cache := [("p", Value.vstr "x")], events := [] }
      = ({ fs := ⟨[["w"], ["w", "J"]], []⟩, cache := [("p", Value.vstr "x")], events := [] },
         .ok [("p", Value.vstr "x")]) :=
  ⟨by decide,
   resolution_idempotent { cwd := some "w", params := [("p", ⟨false, none, none⟩)] } "d" "J"
     [("p", Value.vstr "x")] [("p", Value.vstr "OTHER")] (initSt ⟨[["w"], ["w", "J"]], []⟩)
     { fs := ⟨[["w"], ["w", "J"]], []⟩, cache := [("p", Value.vstr "x")], events := [] }
     "p" [("p", Value.vstr "x")] (Value.vstr "x") (by decide) (by decide)⟩

/-! ## C4: file-type parameters are materialised and resolve to filenames -/

/-- C4: resolving a declared `file`-type parameter writes the caller's
bytes (empty bytes when the caller supplied none) to
`<scratch_path>/<filename>` — `filename` being the spec's field,
defaulting to the parameter name — and the resolved value is that
relative filename, never the raw bytes. -/
theorem file_param_write (cfg : CmdConfig) (dw jid : String)
    (kw : List (String × Value)) (st : St) (n : String) (ps : ParamSpec)
    (hC : lookupL st.cache n = none)
    (hP : lookupL cfg.params n = some ps)
    (hty : (ps.type == some "file") = true)
    (hreq : (ps.required && (kwGet kw n == Value.vnone)) = false)
    (hfn : safeName (paramFilename ps n) = true)
    (hscr : st.fs.dirs.contains (scratchComps cfg dw jid) = true)
    (htgt : st.fs.dirs.contains (scratchComps cfg dw jid ++ [paramFilename ps n]) = false) :
    pathComps (jobFilePathStr cfg dw jid (paramFilename ps n))
      = scratchComps cfg dw jid ++ [paramFilename ps n]
    ∧ getParams cfg dw jid kw [n] st =
      ({ st with
         fs := { st.fs with files :=
           (st.fs.files.filter
             (fun f => f.1 ≠ scratchComps cfg dw jid ++ [paramFilename ps n])) ++
           [(scratchComps cfg dw jid ++ [paramFilename ps n], fileContent (kwGet kw n))] }
         cache := (n, Value.vstr (paramFilename ps n)) :: st.cache },
       .ok [(n, Value.vstr (paramFilename ps n))]) := by
  have hpath := jobFileComps cfg dw jid (paramFilename ps n) hfn
  have hpar : st.fs.dirs.contains
      (scratchComps cfg dw jid ++ [paramFilename ps n]).dropLast = true := by
    rw [List.dropLast_concat]
    exact hscr
  have hw0 := writeFileE_ok_of st.fs (scratchComps cfg dw jid ++ [paramFilename ps n])
    (fileContent (kwGet kw n)) htgt hpar
  refine ⟨hpath, ?_⟩
  apply getParams_file cfg dw jid kw st n ps _ hC hP hreq hty
  rw [hpath]
  exact hw0

theorem file_param_write_witness :
    safeName (paramFilename ⟨false, some "file", none⟩ "f") = true
    ∧ pathComps (jobFilePathStr
        { cwd := some "w", params := [("f", ⟨false, some "file", none⟩)] } "d" "J" "f") = ["w", "J", "f"]
    ∧ getParams { cwd := some "w", params := [("f", ⟨false, some "file", none⟩)] } "d" "J"
        [("f", Value.vbytes "data")] ["f"] (initSt ⟨[["w"], ["w", "J"]], []⟩)
      = ({ fs := ⟨[["w"], ["w", "J"]], [(["w", "J", "f"], "data")]⟩
           cache := [("f", Value.vstr "f")]
           events := [] },
         .ok [("f", Value.vstr "f")]) := by
  have h := file_param_write { cwd := some "w", params := [("f", ⟨false, some "file", none⟩)] }
    "d" "J" [("f", Value.vbytes "data")] (initSt ⟨[["w"], ["w", "J"]], []⟩) "f"
    ⟨false, some "file", none⟩
    (by decide) (by decide) (by decide) (by decide) (by decide) (by decide) (by decide)
  exact ⟨by decide, h.1, h.2⟩

/-! ## C8: an absent plain optional parameter resolves to `None` -/

/-- C8 counterexample: with a declared plain, non-required parameter and
no caller value, resolution yields `None` (Python's null) — not the empty
string the claim promises. -/
theorem plain_absent_cex :
    getParams { cwd := some "w", params := [("p", ⟨false, none, none⟩)] } "d" "J" [] ["p"]
        (initSt ⟨[["w"], ["w", "J"]], []⟩)
      = ({ fs := ⟨[["w"], ["w", "J"]], []⟩, cache := [("p", Value.vnone)], events := [] },
         .ok [("p", Value.vnone)])
    ∧ Value.vnone ≠ Value.vstr "" := ⟨by decide, by decide⟩

/-- C8 amended: for every declared plain (non-file) parameter that is not
required, an absent caller value resolves the parameter to `None`
(`kwargs.get` returns Python `None`), which is cached and returned — not
to the empty string. -/
theorem plain_absent_resolves_none (cfg : CmdConfig) (dw jid : String)
    (kw : List (String × Value)) (st : St) (n : String) (ps : ParamSpec)
    (hC : lookupL st.cache n = none)
    (hP : lookupL cfg.params n = some ps)
    (hreq : ps.required = false)
    (hty : (ps.type == some "file") = false)
    (hkw : kwGet kw n = Value.vnone) :
    getParams cfg dw jid kw [n] st =
      ({ st with cache := (n, Value.vnone) :: st.cache }, .ok [(n, Value.vnone)]) := by
  have hreqb : (ps.required && (kwGet kw n == Value.vnone)) = false := by
    rw [hreq]
    simp
  have h := getParams_plain cfg dw jid kw st n ps hC hP hreqb hty
  rw [hkw] at h
  exact h

theorem plain_absent_resolves_none_witness :
    lookupL (initSt ⟨[["w"], ["w", "J"]], []⟩).cache "p" = none
    ∧ kwGet [] "p" = Value.vnone
    ∧ getParams { cwd := some "w", params := [("p", ⟨false, none, none⟩)] } "d" "J" [] ["p"]
        (initSt ⟨[["w"], ["w", "J"]], []⟩)
      = ({ fs := ⟨[["w"], ["w", "J"]], []⟩, cache := [("p", Value.vnone)], events := [] },
         .ok [("p", Value.vnone)]) := by
  have h := plain_absent_resolves_none
    { cwd := some "w", params := [("p", ⟨false, none, none⟩)] } "d" "J" []
    (initSt ⟨[["w"], ["w", "J"]], []⟩) "p" ⟨false, none, none⟩
    (by decide) (by decide) (by decide) (by decide) (by decide)
  exact ⟨by decide, by decide, h⟩

/-! ## C10: required-ness only rejects an exactly-absent (`None`) value -/

/-- C10: the required check compares against `None` only, so a supplied
but empty value (empty string or empty bytes) satisfies a required
parameter: resolution does not raise, and for a file-type parameter an
empty file is written at the scratch location. -/
theorem required_accepts_empty (cfg : CmdConfig) (dw jid : String)
    (kw : List (String × Value)) (st : St) (n : String) (ps : ParamSpec) (v : Value)
    (hC : lookupL st.cache n = none)
    (hP : lookupL cfg.params n = some ps)
    (_hreq : ps.required = true)
    (hkw : lookupL kw n = some v)
    (hv : v = Value.vstr "" ∨ v = Value.vbytes "")
    (hfn : safeName (paramFilename ps n) = true)
    (hscr : st.fs.dirs.contains (scratchComps cfg dw jid) = true)
    (htgt : st.fs.dirs.contains (scratchComps cfg dw jid ++ [paramFilename ps n]) = false) :
    (getParams cfg dw jid kw [n] st).2
      = .ok [(n, if (ps.type == some "file") = true
                 then Value.vstr (paramFilename ps n) else v)]
    ∧ ((ps.type == some "file") = true →
        (scratchComps cfg dw jid ++ [paramFilename ps n], "")
          ∈ (getParams cfg dw jid kw [n] st).1.fs.files) := by
  have hkg : kwGet kw n = v := by
    unfold kwGet
    rw [hkw]
    rfl
  have hnn : (kwGet kw n == Value.vnone) = false := by
    rw [hkg]
    rcases hv with rfl | rfl <;> rfl
  have hreqb : (ps.required && (kwGet kw n == Value.vnone)) = false := by
    rw [hnn]
    simp
  have hcontent : fileContent (kwGet kw n) = "" := by
    rw [hkg]
    rcases hv with rfl | rfl <;> rfl
  by_cases hty : (ps.type == some "file") = true
  · have hpar : st.fs.dirs.contains
        (scratchComps cfg dw jid ++ [paramFilename ps n]).dropLast = true := by
      rw [List.dropLast_concat]
      exact hscr
    have hw0 := writeFileE_ok_of st.fs (scratchComps cfg dw jid ++ [paramFilename ps n])
      (fileContent (kwGet kw n)) htgt hpar
    have hw : writeFileE st.fs (pathComps (jobFilePathStr cfg dw jid (paramFilename ps n)))
        (fileContent (kwGet kw n)) =
        .ok { st.fs with files :=
          (st.fs.files.filter
            (fun f => f.1 ≠ scratchComps cfg dw jid ++ [paramFilename ps n])) ++
          [(scratchComps cfg dw jid ++ [paramFilename ps n], fileContent (kwGet kw n))] } := by
      rw [jobFileComps cfg dw jid (paramFilename ps n) hfn]
      exact hw0
    have h := getParams_file cfg dw jid kw st n ps _ hC hP hreqb hty hw
    rw [h]
    constructor
    · rw [if_pos hty]
    · intro _
      rw [← hcontent]
      exact List.mem_append.mpr (Or.inr (List.mem_singleton.mpr rfl))
  · have h := getParams_plain cfg dw jid kw st n ps hC hP hreqb
      (by rw [Bool.eq_false_iff]; exact hty)
    rw [h]
    constructor
    · rw [if_neg hty, hkg]
    · intro hcon
      exact absurd hcon hty

theorem required_accepts_empty_witness :
    lookupL [("f", Value.vstr "")] "f" = some (Value.vstr "")
    ∧ ((getParams { cwd := some "w", params := [("f", ⟨true, some "file", none⟩)] } "d" "J"
          [("f", Value.vstr "")] ["f"] (initSt ⟨[["w"], ["w", "J"]], []⟩)).2
        = .ok [("f", if ((⟨true, some "file", none⟩ : ParamSpec).type == some "file") = true
                     then Value.vstr (paramFilename ⟨true, some "file", none⟩ "f")
                     else Value.vstr "")]
      ∧ (((⟨true, some "file", none⟩ : ParamSpec).type == some "file") = true →
          (scratchComps { cwd := some "w", params := [("f", ⟨true, some "file", none⟩)] }
              "d" "J" ++ [paramFilename ⟨true, some "file", none⟩ "f"], "")
            ∈ (getParams { cwd := some "w", params := [("f", ⟨true, some "file", none⟩)] }
                "d" "J" [("f", Value.vstr "")] ["f"]
                (initSt ⟨[["w"], ["w", "J"]], []⟩)).1.fs.files)) :=
  ⟨by decide,
   required_accepts_empty { cwd := some "w", params := [("f", ⟨true, some "file", none⟩)] }
     "d" "J" [("f", Value.vstr "")] (initSt ⟨[["w"], ["w", "J"]], []⟩) "f"
     ⟨true, some "file", none⟩ (Value.vstr "")
     (by decide) (by decide) (by decide) (by decide) (Or.inl rfl)
     (by decide) (by decide) (by decide)⟩

/-! ## The pre-resolution pass under a missing required parameter -/

/-- Does the caller fail to supply this declared, required parameter? -/
def missingReq (kw : List (String × Value)) (p : String × ParamSpec) : Bool :=
  p.2.required && (kwGet kw p.1 == Value.vnone)

/-- `f` is exactly the file `get_params` writes for the declared
file-type parameter `p`. -/
def writtenByOne (cfg : CmdConfig) (dw jid : String) (kw : List (String × Value))
    (p : String × ParamSpec) (f : List String × String) : Prop :=
  p.2.type = some "file" ∧
  f = (scratchComps cfg dw jid ++ [paramFilename p.2 p.1], fileContent (kwGet kw p.1))

theorem lookupL_mem_nodup {α : Type} (l : List (String × α))
    (hnd : (l.map Prod.fst).Nodup) : ∀ p ∈ l, lookupL l p.1 = some p.2 := by
  induction l with
  | nil => intro p hp; cases hp
  | cons kv r ih =>
    obtain ⟨k, v⟩ := kv
    rw [List.map_cons, List.nodup_cons] at hnd
    intro p hp
    rcases List.mem_cons.mp hp with rfl | hp'
    · exact lookupL_cons_self k v r
    · have hk : k ≠ p.1 := by
        intro he
        exact hnd.1 (he ▸ List.mem_map.mpr ⟨p, hp', rfl⟩)
      rw [lookupL_cons_ne k p.1 v r hk]
      exact ih hnd.2 p hp'

/-- Walking the declared parameters in order with a fresh cache: the first
declared required-but-missing parameter raises the named `ValueError`;
directories and events are untouched, and the only new files are those of
file-type parameters declared strictly before the failing one. -/
theorem preprocess_missing_go (cfg : CmdConfig) (dw jid : String)
    (kw : List (String × Value)) :
    ∀ (l : List (String × ParamSpec)) (st : St) (qp : String × ParamSpec),
      l.find? (missingReq kw) = some qp →
      (∀ p ∈ l, lookupL st.cache p.1 = none) →
      (∀ p ∈ l, lookupL cfg.params p.1 = some p.2) →
      (∀ p ∈ l, p.2.type = some "file" → safeName (paramFilename p.2 p.1) = true) →
      (l.map Prod.fst).Nodup →
      st.fs.dirs.contains (scratchComps cfg dw jid) = true →
      (∀ d ∈ st.fs.dirs, startsWithComps (scratchComps cfg dw jid) d = true →
        d = scratchComps cfg dw jid) →
      ∃ st', preprocessParams cfg dw jid kw l st
          = (st', .error (.valueError ("Missing required param: " ++ qp.1)))
        ∧ st'.fs.dirs = st.fs.dirs
        ∧ st'.events = st.events
        ∧ ∀ f ∈ st'.fs.files, f ∈ st.fs.files ∨
            ∃ p ∈ l.takeWhile (fun x => !missingReq kw x), writtenByOne cfg dw jid kw p f := by
  intro l
  induction l with
  | nil =>
    intro st qp hfind
    simp [List.find?] at hfind
  | cons hd rest ih =>
    obtain ⟨n, ps⟩ := hd
    intro st qp hfind hc hlk hsafe hnd hscr hnod
    by_cases hm : missingReq kw (n, ps) = true
    · have hqp : (n, ps) = qp := by
        rw [List.find?_cons_of_pos _ hm] at hfind
        injection hfind
      subst hqp
      have hstep := getParams_missing cfg dw jid kw st n ps
        (hc (n, ps) (List.mem_cons_self _ _))
        (hlk (n, ps) (List.mem_cons_self _ _)) hm
      refine ⟨st, ?_, rfl, rfl, fun f hf => Or.inl hf⟩
      unfold preprocessParams
      rw [hstep]
    · have hmf : missingReq kw (n, ps) = false := Bool.eq_false_iff.mpr hm
      have hmt : (!missingReq kw (n, ps)) = true := by rw [hmf]; rfl
      have hfind' : rest.find? (missingReq kw) = some qp := by
        rw [List.find?_cons_of_neg _ hm] at hfind
        exact hfind
      rw [List.map_cons, List.nodup_cons] at hnd
      have hCn := hc (n, ps) (List.mem_cons_self _ _)
      have hPn := hlk (n, ps) (List.mem_cons_self _ _)
      have hreqb : (ps.required && (kwGet kw n == Value.vnone)) = false := hmf
      have hkeyne : ∀ p ∈ rest, n ≠ p.1 := by
        intro p hp he
        exact hnd.1 (he ▸ List.mem_map.mpr ⟨p, hp, rfl⟩)
      by_cases hty : (ps.type == some "file") = true
      · have htyeq : ps.type = some "file" := eq_of_beq hty
        have hfn := hsafe (n, ps) (List.mem_cons_self _ _) htyeq
        have htgt : st.fs.dirs.contains
            (scratchComps cfg dw jid ++ [paramFilename ps n]) = false := by
          cases hcc : st.fs.dirs.contains (scratchComps cfg dw jid ++ [paramFilename ps n])
          · rfl
          · exfalso
            have hmem := contains_true_iff.mp hcc
            have hx := hnod _ hmem (startsWithComps_append _ _)
            simp at hx
        have hpar : st.fs.dirs.contains
            (scratchComps cfg dw jid ++ [paramFilename ps n]).dropLast = true := by
          rw [List.dropLast_concat]
          exact hscr
        have hw0 := writeFileE_ok_of st.fs (scratchComps cfg dw jid ++ [paramFilename ps n])
          (fileContent (kwGet kw n)) htgt hpar
        have hw : writeFileE st.fs
            (pathComps (jobFilePathStr cfg dw jid (paramFilename ps n)))
            (fileContent (kwGet kw n)) =
            .ok { st.fs with files :=
              (st.fs.files.filter
                (fun f => f.1 ≠ scratchComps cfg dw jid ++ [paramFilename ps n])) ++
              [(scratchComps cfg dw jid ++ [paramFilename ps n],
                fileContent (kwGet kw n))] } := by
          rw [jobFileComps cfg dw jid (paramFilename ps n) hfn]
          exact hw0
        have hstep := getParams_file cfg dw jid kw st n ps _ hCn hPn hreqb hty hw
        obtain ⟨st', heq, hdirs, hev, hfiles⟩ := ih
          { st with
            fs := { st.fs with files :=
              (st.fs.files.filter
                (fun f => f.1 ≠ scratchComps cfg dw jid ++ [paramFilename ps n])) ++
              [(scratchComps cfg dw jid ++ [paramFilename ps n],
                fileContent (kwGet kw n))] }
            cache := (n, Value.vstr (paramFilename ps n)) :: st.cache }
          qp hfind'
          (by
            intro p hp
            show lookupL ((n, Value.vstr (paramFilename ps n)) :: st.cache) p.1 = none
            rw [lookupL_cons_ne n p.1 _ _ (hkeyne p hp)]
            exact hc p (List.mem_cons_of_mem _ hp))
          (fun p hp => hlk p (List.mem_cons_of_mem _ hp))
          (fun p hp => hsafe p (List.mem_cons_of_mem _ hp))
          hnd.2 hscr hnod
        refine ⟨st', ?_, ?_, ?_, ?_⟩
        · unfold preprocessParams
          rw [hstep]
          exact heq
        · exact hdirs
        · exact hev
        · intro f hf
          rcases hfiles f hf with hin | ⟨p, hp, hwr⟩
          · rcases List.mem_append.mp hin with hfl | hfr
            · exact Or.inl (List.mem_of_mem_filter hfl)
            · refine Or.inr ⟨(n, ps), ?_, htyeq, List.mem_singleton.mp hfr⟩
              simp only [List.takeWhile_cons, hmt, if_true]
              exact List.mem_cons_self _ _
          · refine Or.inr ⟨p, ?_, hwr⟩
            simp only [List.takeWhile_cons, hmt, if_true]
            exact List.mem_cons_of_mem _ hp
      · have hstep := getParams_plain cfg dw jid kw st n ps hCn hPn hreqb
          (Bool.eq_false_iff.mpr hty)
        obtain ⟨st', heq, hdirs, hev, hfiles⟩ := ih
          { st with cache := (n, kwGet kw n) :: st.cache } qp hfind'
          (by
            intro p hp
            show lookupL ((n, kwGet kw n) :: st.cache) p.1 = none
            rw [lookupL_cons_ne n p.1 _ _ (hkeyne p hp)]
            exact hc p (List.mem_cons_of_mem _ hp))
          (fun p hp => hlk p (List.mem_cons_of_mem _ hp))
          (fun p hp => hsafe p (List.mem_cons_of_mem _ hp))
          hnd.2 hscr hnod
        refine ⟨st', ?_, ?_, ?_, ?_⟩
        · unfold preprocessParams
          rw [hstep]
          exact heq
        · exact hdirs
        · exact hev
        · intro f hf
          rcases hfiles f hf with hin | ⟨p, hp, hwr⟩
          · exact Or.inl hin
          · refine Or.inr ⟨p, ?_, hwr⟩
            simp only [List.takeWhile_cons, hmt, if_true]
            exact List.mem_cons_of_mem _ hp

theorem runFn_preprocess_error (cfg : CmdConfig) (dw pcwd jid : String)
    (oracle : Option SubprocResult) (kw : List (String × Value)) (st0 : St)
    (fs1 : Fs) (st' : St) (e : Err)
    (hmk : mkdirsE st0.fs (scratchComps cfg dw jid) = .ok fs1)
    (hpre : preprocessParams cfg dw jid kw cfg.params { st0 with fs := fs1 }
      = (st', .error e)) :
    runFn cfg dw pcwd jid oracle kw st0
      = ({ st' with fs := rmtreeFs st'.fs (scratchComps cfg dw jid) }, .error e) := by
  unfold runFn
  rw [hmk]
  show (match runBody cfg dw pcwd jid oracle kw { st0 with fs := fs1 } with
    | (st2, res) =>
      ({ st2 with fs := rmtreeFs st2.fs (scratchComps cfg dw jid) },
       res.map (fun v => (true, v)))) = _
  unfold runBody
  rw [hpre]
  rfl

/-! ## C2: a missing required parameter fails validation before any subprocess -/

/-- C2: whenever some declared parameter is required and the caller has
supplied no value for it, the run raises a `ValueError` whose message
names a missing required parameter (the first one in declaration order),
and no subprocess is ever started (the run's event log stays empty).
Hypotheses: a fresh safe `uuid4` job id whose scratch path does not
pre-exist and whose ancestors are not files (so directory creation
succeeds), distinct declared parameter names (a Python dict), and
well-formed filenames for declared file parameters. -/
theorem required_missing_validation (cfg : CmdConfig) (dw processCwd jobId : String)
    (oracle : Option SubprocResult) (kw : List (String × Value)) (fs0 : Fs)
    (p : String) (ps : ParamSpec)
    (hjid : safeName jobId = true)
    (hmem : (p, ps) ∈ cfg.params)
    (hreq : ps.required = true)
    (hmiss : kwGet kw p = Value.vnone)
    (hnodup : (cfg.params.map Prod.fst).Nodup)
    (hsafe : ∀ q ∈ cfg.params, q.2.type = some "file" →
      safeName (paramFilename q.2 q.1) = true)
    (hfresh : clearBelow fs0 (scratchComps cfg dw jobId) = true)
    (hanc : (prefixesOf (scratchComps cfg dw jobId)).all
      (fun q => !(fs0.files.map (·.1)).contains q) = true) :
    ∃ q qs, (q, qs) ∈ cfg.params ∧ qs.required = true ∧ kwGet kw q = Value.vnone ∧
      (runFn cfg dw processCwd jobId oracle kw (initSt fs0)).2
        = .error (.valueError ("Missing required param: " ++ q)) ∧
      (runFn cfg dw processCwd jobId oracle kw (initSt fs0)).1.events = [] := by
  have hex : missingReq kw (p, ps) = true := by
    unfold missingReq
    rw [hreq, hmiss]
    rfl
  cases hfd : cfg.params.find? (missingReq kw) with
  | none =>
    exfalso
    have := List.find?_eq_none.mp hfd (p, ps) hmem
    exact this hex
  | some qp =>
    have hq1 : missingReq kw qp = true := List.find?_some hfd
    have hq2 : qp ∈ cfg.params := List.mem_of_find?_eq_some hfd
    unfold missingReq at hq1
    rw [Bool.and_eq_true] at hq1
    have hanyf : ((prefixesOf (scratchComps cfg dw jobId)).any
        (fun q => (fs0.files.map (·.1)).contains q)) = false := by
      rw [List.any_eq_false]
      intro q hq
      have hx := List.all_eq_true.mp hanc q hq
      rw [Bool.not_eq_true'] at hx
      rw [hx]
      exact Bool.false_ne_true
    obtain ⟨fs1, hmk, hd1⟩ : ∃ fs1, mkdirsE fs0 (scratchComps cfg dw jobId) = .ok fs1 ∧
        fs1.dirs = fs0.dirs ++ (prefixesOf (scratchComps cfg dw jobId)).filter
          (fun q => !fs0.dirs.contains q) := by
      refine ⟨{ fs0 with dirs := fs0.dirs ++ (prefixesOf (scratchComps cfg dw jobId)).filter (fun q => !fs0.dirs.contains q) }, ?_, rfl⟩
      unfold mkdirsE
      rw [hanyf]
      rfl
    have hscr1 : fs1.dirs.contains (scratchComps cfg dw jobId) = true :=
      mkdirsE_ok_mem hmk (scratchComps_ne_nil cfg dw jobId hjid)
    have hnod1 : ∀ d ∈ fs1.dirs,
        startsWithComps (scratchComps cfg dw jobId) d = true →
        d = scratchComps cfg dw jobId := by
      rw [hd1]
      intro d hd hsw
      rcases List.mem_append.mp hd with h0 | hpre
      · exfalso
        unfold clearBelow at hfresh
        rw [Bool.and_eq_true] at hfresh
        have hx := List.all_eq_true.mp hfresh.1 d h0
        rw [hsw] at hx
        cases hx
      · have hdpre : d ∈ prefixesOf (scratchComps cfg dw jobId) :=
          List.mem_of_mem_filter hpre
        obtain ⟨k, hk, hdk⟩ := List.mem_map.mp hdpre
        obtain ⟨r, hr⟩ := (startsWithComps_iff _ _).mp hsw
        have hlen : d.length ≤ (scratchComps cfg dw jobId).length := by
          rw [← hdk, List.length_take]
          exact min_le_right _ _
        rw [hr, List.length_append] at hlen
        have hr0 : r = [] := List.length_eq_zero.mp (by omega)
        rw [hr, hr0, List.append_nil]
    obtain ⟨st', heq, hdirs, hev, hfiles⟩ := preprocess_missing_go cfg dw jobId kw
      cfg.params ⟨fs1, [], []⟩ qp hfd (fun _ _ => rfl)
      (lookupL_mem_nodup cfg.params hnodup) hsafe hnodup hscr1 hnod1
    have hrun := runFn_preprocess_error cfg dw processCwd jobId oracle kw (initSt fs0)
      fs1 st' (.valueError ("Missing required param: " ++ qp.1)) hmk heq
    refine ⟨qp.1, qp.2, hq2, hq1.1, eq_of_beq hq1.2, ?_, ?_⟩
    · rw [hrun]
    · rw [hrun]
      exact hev

theorem required_missing_validation_witness :
    ("b", (⟨true, none, none⟩ : ParamSpec)) ∈
      ({ cwd := some "w", params := [("b", ⟨true, none, none⟩)] } : CmdConfig).params
    ∧ kwGet [] "b" = Value.vnone
    ∧ ∃ q qs, (q, qs) ∈
        ({ cwd := some "w", params := [("b", ⟨true, none, none⟩)] } : CmdConfig).params
      ∧ qs.required = true ∧ kwGet [] q = Value.vnone ∧
      (runFn { cwd := some "w", params := [("b", ⟨true, none, none⟩)] } "d" "p" "J"
          (some ⟨"", "", 0, 0⟩) [] (initSt ⟨[["w"]], []⟩)).2
        = .error (.valueError ("Missing required param: " ++ q)) ∧
      (runFn { cwd := some "w", params := [("b", ⟨true, none, none⟩)] } "d" "p" "J"
          (some ⟨"", "", 0, 0⟩) [] (initSt ⟨[["w"]], []⟩)).1.events = [] :=
  ⟨by decide, by decide,
   required_missing_validation { cwd := some "w", params := [("b", ⟨true, none, none⟩)] }
     "d" "p" "J" (some ⟨"", "", 0, 0⟩) [] ⟨[["w"]], []⟩ "b" ⟨true, none, none⟩
     (by decide) (by decide) (by decide) (by decide) (by decide)
     (by decide) (by decide) (by decide)⟩

/-! ## C9: state at a required-parameter validation failure -/

/-- C9 counterexample: with a file-type parameter `a` declared before the
required parameter `b`, omitting `b` raises the `ValueError` — but the
file for `a` has already been written into the scratch directory, so the
scratch directory did undergo a mutation beyond its creation. -/
theorem required_missing_writes_earlier_file_cex :
    (preprocessParams { cwd := some "w", params := [("a", ⟨false, some "file", none⟩), ("b", ⟨true, none, none⟩)] }
        "d" "J" [("a", Value.vstr "data")]
        [("a", ⟨false, some "file", none⟩), ("b", ⟨true, none, none⟩)]
        ⟨⟨[["w"], ["w", "J"]], []⟩, [], []⟩).2
      = .error (.valueError "Missing required param: b")
    ∧ (["w", "J", "a"], "data") ∈
      (preprocessParams { cwd := some "w", params := [("a", ⟨false, some "file", none⟩), ("b", ⟨true, none, none⟩)] }
        "d" "J" [("a", Value.vstr "data")]
        [("a", ⟨false, some "file", none⟩), ("b", ⟨true, none, none⟩)]
        ⟨⟨[["w"], ["w", "J"]], []⟩, [], []⟩).1.fs.files
    ∧ startsWithComps (scratchComps { cwd := some "w", params := [("a", ⟨false, some "file", none⟩), ("b", ⟨true, none, none⟩)] }
        "d" "J") ["w", "J", "a"] = true :=
  ⟨by decide, by decide, by decide⟩

/-- C9 amended: omitting a required parameter makes the resolver fail
with the `ValueError` naming the first missing required parameter; at the
failure point no directory has been created or removed beyond the
scratch directory's creation, and every file of the scratch state either
pre-existed or is the materialisation of a file-type parameter declared
strictly before the failing one (such earlier parameter files may already
have been written). -/
theorem required_missing_frame (cfg : CmdConfig) (dw jid : String)
    (kw : List (String × Value)) (fs1 : Fs) (qp : String × ParamSpec)
    (hfind : cfg.params.find? (missingReq kw) = some qp)
    (hnodup : (cfg.params.map Prod.fst).Nodup)
    (hsafe : ∀ p ∈ cfg.params, p.2.type = some "file" →
      safeName (paramFilename p.2 p.1) = true)
    (hscr : fs1.dirs.contains (scratchComps cfg dw jid) = true)
    (hnod : ∀ d ∈ fs1.dirs, startsWithComps (scratchComps cfg dw jid) d = true →
      d = scratchComps cfg dw jid) :
    ∃ st', preprocessParams cfg dw jid kw cfg.params ⟨fs1, [], []⟩
        = (st', .error (.valueError ("Missing required param: " ++ qp.1)))
      ∧ st'.fs.dirs = fs1.dirs
      ∧ ∀ f ∈ st'.fs.files, f ∈ fs1.files ∨
          ∃ p ∈ cfg.params.takeWhile (fun x => !missingReq kw x),
            writtenByOne cfg dw jid kw p f := by
  obtain ⟨st', heq, hdirs, hev, hfiles⟩ := preprocess_missing_go cfg dw jid kw cfg.params
    ⟨fs1, [], []⟩ qp hfind (fun _ _ => rfl)
    (lookupL_mem_nodup cfg.params hnodup) hsafe hnodup hscr hnod
  exact ⟨st', heq, hdirs, hfiles⟩

theorem required_missing_frame_witness :
    (({ cwd := some "w", params := [("a", ⟨false, some "file", none⟩), ("b", ⟨true, none, none⟩)] }
        : CmdConfig).params.find? (missingReq [("a", Value.vstr "data")]))
      = some ("b", ⟨true, none, none⟩)
    ∧ ∃ st', preprocessParams { cwd := some "w", params := [("a", ⟨false, some "file", none⟩), ("b", ⟨true, none, none⟩)] }
        "d" "J" [("a", Value.vstr "data")]
        ({ cwd := some "w", params := [("a", ⟨false, some "file", none⟩), ("b", ⟨true, none, none⟩)] }
          : CmdConfig).params ⟨⟨[["w"], ["w", "J"]], []⟩, [], []⟩
        = (st', .error (.valueError ("Missing required param: " ++ "b")))
      ∧ st'.fs.dirs = (⟨[["w"], ["w", "J"]], []⟩ : Fs).dirs
      ∧ ∀ f ∈ st'.fs.files, f ∈ (⟨[["w"], ["w", "J"]], []⟩ : Fs).files ∨
          ∃ p ∈ ({ cwd := some "w", params := [("a", ⟨false, some "file", none⟩), ("b", ⟨true, none, none⟩)] }
              : CmdConfig).params.takeWhile
              (fun x => !missingReq [("a", Value.vstr "data")] x),
            writtenByOne { cwd := some "w", params := [("a", ⟨false, some "file", none⟩), ("b", ⟨true, none, none⟩)] }
              "d" "J" [("a", Value.vstr "data")] p f :=
  ⟨by decide,
   required_missing_frame { cwd := some "w", params := [("a", ⟨false, some "file", none⟩), ("b", ⟨true, none, none⟩)] }
     "d" "J" [("a", Value.vstr "data")] ⟨[["w"], ["w", "J"]], []⟩
     ("b", ⟨true, none, none⟩)
     (by decide) (by decide) (by decide) (by decide) (by decide)⟩

/-! ## Template-scanner lemmas -/

theorem scanId_len : ∀ cs : List Char, (scanId cs).2.length ≤ cs.length := by
  intro cs
  induction cs with
  | nil => simp [scanId]
  | cons c r ih =>
    unfold scanId
    by_cases h : isIdChar c = true
    · simp only [h, if_true]
      exact le_trans ih (by simp)
    · simp only [h, if_false]
      simp

theorem bracedTok_len (r : List Char) : (bracedTok r).2.length ≤ r.length + 1 := by
  have hs := scanId_len r
  unfold bracedTok
  split
  · simp [List.length_cons]
  next c' nm' r' hsc =>
    split
    next r'' =>
      split
      · rw [hsc] at hs
        simp only [List.length_cons] at hs ⊢
        omega
      · simp [List.length_cons]
    next => simp [List.length_cons]

theorem dollarTok_len : ∀ cs : List Char, (dollarTok cs).2.length ≤ cs.length := by
  intro cs
  cases cs with
  | nil => simp [dollarTok]
  | cons c r =>
    simp only [dollarTok]
    by_cases h1 : (c == '$') = true
    · rw [if_pos h1]
      simp [List.length_cons]
    · rw [if_neg h1]
      by_cases h2 : (c == '{') = true
      · rw [if_pos h2]
        have := bracedTok_len r
        simp only [List.length_cons]
        omega
      · rw [if_neg h2]
        by_cases h3 : isIdStart c = true
        · rw [if_pos h3]
          have := scanId_len r
          simp only [List.length_cons]
          omega
        · rw [if_neg h3]

theorem tokStep_len {cs : List Char} {t : Tok} {r : List Char}
    (h : tokStep cs = some (t, r)) : r.length < cs.length := by
  cases cs with
  | nil => simp [tokStep] at h
  | cons c cs' =>
    simp only [tokStep] at h
    by_cases h1 : (c == '$') = true
    · rw [if_pos h1] at h
      injection h with h'
      have hd := dollarTok_len cs'
      rw [show (dollarTok cs').2 = r from congrArg Prod.snd h'] at hd
      simp only [List.length_cons]
      omega
    · rw [if_neg h1] at h
      injection h with h'
      have : cs' = r := congrArg Prod.snd h'
      subst this
      simp [List.length_cons]

theorem tokenizeF_eq_aux : ∀ (n : Nat) (cs : List Char), cs.length ≤ n →
    ∀ (f g : Nat), cs.length ≤ f → cs.length ≤ g → tokenizeF f cs = tokenizeF g cs := by
  intro n
  induction n with
  | zero =>
    intro cs hcs f g hf hg
    have : cs = [] := List.length_eq_zero.mp (Nat.le_zero.mp hcs)
    subst this
    cases f <;> cases g <;> rfl
  | succ n ihn =>
    intro cs hcs f g hf hg
    cases cs with
    | nil => cases f <;> cases g <;> rfl
    | cons c r =>
      simp only [List.length_cons] at hcs hf hg
      obtain ⟨f', rfl⟩ : ∃ f', f = f' + 1 := ⟨f - 1, by omega⟩
      obtain ⟨g', rfl⟩ : ∃ g', g = g' + 1 := ⟨g - 1, by omega⟩
      simp only [tokenizeF]
      cases ht : tokStep (c :: r) with
      | none => rfl
      | some tr =>
        obtain ⟨t, rr⟩ := tr
        have hlen := tokStep_len ht
        simp only [List.length_cons] at hlen
        show t :: tokenizeF f' rr = t :: tokenizeF g' rr
        exact congrArg (fun l => t :: l) (ihn rr (by omega) f' g' (by omega) (by omega))

theorem tokenize_step {cs : List Char} {t : Tok} {r : List Char}
    (h : tokStep cs = some (t, r)) : tokenize cs = t :: tokenize r := by
  cases cs with
  | nil => simp [tokStep] at h
  | cons c cs' =>
    show tokenizeF (c :: cs').length (c :: cs') = _
    rw [List.length_cons]
    simp only [tokenizeF]
    rw [h]
    have hlen := tokStep_len h
    simp only [List.length_cons] at hlen
    show t :: tokenizeF cs'.length r = t :: tokenize r
    exact congrArg (fun l => t :: l)
      (tokenizeF_eq_aux r.length r (le_refl _) cs'.length r.length (by omega) (le_refl _))

theorem tokenize_lit_pref : ∀ (pre rest : List Char), (∀ c ∈ pre, c ≠ '$') →
    tokenize (pre ++ rest) = pre.map Tok.lit ++ tokenize rest := by
  intro pre
  induction pre with
  | nil => intro rest _; rfl
  | cons c pre' ih =>
    intro rest h
    have hc : (c == '$') = false :=
      beq_eq_false_iff_ne.mpr (h c (List.mem_cons_self _ _))
    have hstep : tokStep (c :: (pre' ++ rest)) = some (.lit c, pre' ++ rest) := by
      simp only [tokStep]
      rw [hc]
      rfl
    rw [List.cons_append, tokenize_step hstep,
      ih rest (fun x hx => h x (List.mem_cons_of_mem _ hx)), List.map_cons, List.cons_append]

theorem tokenize_nil : tokenize [] = [] := rfl

theorem tokenize_lit_all (l : List Char) (h : ∀ c ∈ l, c ≠ '$') :
    tokenize l = l.map Tok.lit := by
  have := tokenize_lit_pref l [] h
  rw [List.append_nil] at this
  rw [this, tokenize_nil, List.append_nil]

theorem scanId_all_stop : ∀ (nm : List Char), (∀ c ∈ nm, isIdChar c = true) →
    ∀ (d : Char) (rest : List Char), isIdChar d = false →
    scanId (nm ++ d :: rest) = (nm, d :: rest) := by
  intro nm
  induction nm with
  | nil =>
    intro _ d rest hd
    simp [scanId, hd]
  | cons c nm' ih =>
    intro h d rest hd
    have hc : isIdChar c = true := h c (List.mem_cons_self _ _)
    rw [List.cons_append]
    simp only [scanId, hc, if_true]
    rw [ih (fun x hx => h x (List.mem_cons_of_mem _ hx)) d rest hd]

theorem scanId_all : ∀ (nm : List Char), (∀ c ∈ nm, isIdChar c = true) →
    scanId nm = (nm, []) := by
  intro nm
  induction nm with
  | nil => intro _; rfl
  | cons c nm' ih =>
    intro h
    have hc : isIdChar c = true := h c (List.mem_cons_self _ _)
    simp only [scanId, hc, if_true]
    rw [ih (fun x hx => h x (List.mem_cons_of_mem _ hx))]

theorem isIdStart_ne_dollar {c : Char} (h : isIdStart c = true) : (c == '$') = false := by
  rw [beq_eq_false_iff_ne]
  intro he
  rw [he] at h
  exact absurd h (by decide)

theorem isIdStart_ne_brace {c : Char} (h : isIdStart c = true) : (c == '{') = false := by
  rw [beq_eq_false_iff_ne]
  intro he
  rw [he] at h
  exact absurd h (by decide)

theorem tokStep_braced (c : Char) (nm post : List Char)
    (hhd : isIdStart c = true) (hall : ∀ x ∈ c :: nm, isIdChar x = true) :
    tokStep ('$' :: '{' :: ((c :: nm) ++ '}' :: post)) = some (.braced ⟨c :: nm⟩, post) := by
  simp only [tokStep]
  rw [if_pos (by rfl)]
  simp only [dollarTok]
  rw [if_neg (by decide), if_pos (by rfl)]
  unfold bracedTok
  rw [scanId_all_stop (c :: nm) hall '}' post (by decide)]
  simp [hhd]

theorem tokStep_named (c : Char) (nm : List Char)
    (hhd : isIdStart c = true) (hall : ∀ x ∈ nm, isIdChar x = true) :
    tokStep ('$' :: c :: nm) = some (.named ⟨c :: nm⟩, []) := by
  simp only [tokStep]
  rw [if_pos (by rfl)]
  simp only [dollarTok]
  rw [if_neg (by rw [isIdStart_ne_dollar hhd]; exact Bool.false_ne_true),
    if_neg (by rw [isIdStart_ne_brace hhd]; exact Bool.false_ne_true),
    if_pos hhd]
  rw [scanId_all nm hall]

theorem stringMk_inj {a b : String} (h : a.data = b.data) : a = b := by
  cases a
  cases b
  simp only [] at h
  rw [h]

theorem string_append_assoc (a b c : String) : a ++ b ++ c = a ++ (b ++ c) :=
  stringMk_inj (by
    rw [string_data_append, string_data_append, string_data_append, string_data_append,
      List.append_assoc])

theorem renderToks_append (env : List (String × Value)) (a b : List Tok) :
    renderToks env (a ++ b) = renderToks env a ++ renderToks env b := by
  induction a with
  | nil =>
    show renderToks env b = "" ++ renderToks env b
    exact (stringMk_inj (by rw [string_data_append]; rfl)).symm
  | cons t a' ih =>
    show renderTok env t ++ renderToks env (a' ++ b)
      = (renderTok env t ++ renderToks env a') ++ renderToks env b
    rw [ih, string_append_assoc]

theorem renderToks_lit (env : List (String × Value)) (l : List Char) :
    renderToks env (l.map Tok.lit) = ⟨l⟩ := by
  induction l with
  | nil => rfl
  | cons c l' ih =>
    show String.singleton c ++ renderToks env (l'.map Tok.lit) = ⟨c :: l'⟩
    rw [ih]
    exact stringMk_inj (by rw [string_data_append]; rfl)

/-! ## C5: safe template substitution -/

/-- C5: for every environment and every identifier occurrence (in either
the `$name` or the `${name}` form, surrounded by dollar-free literal
text), `safe_substitute` replaces the identifier with the string form of
its value when the name is present in the environment, and leaves the
occurrence as literal, unresolved text when the name is absent — it is a
total function and never fails on a missing key. -/
theorem safe_substitution (env : List (String × Value)) (pre post nm : List Char)
    (hpre : ∀ c ∈ pre, c ≠ '$') (hpost : ∀ c ∈ post, c ≠ '$')
    (hnm : nm ≠ []) (hhd : isIdStart (nm.headD ' ') = true)
    (hall : ∀ c ∈ nm, isIdChar c = true) :
    safeSubstitute ⟨pre ++ '$' :: '{' :: (nm ++ '}' :: post)⟩ env
      = ⟨pre⟩ ++ (match lookupL env ⟨nm⟩ with
          | some v => pyStr v
          | none => "$\x7b" ++ (⟨nm⟩ : String) ++ "\x7d") ++ (⟨post⟩ : String)
    ∧ safeSubstitute ⟨pre ++ '$' :: nm⟩ env
      = ⟨pre⟩ ++ (match lookupL env ⟨nm⟩ with
          | some v => pyStr v
          | none => "$" ++ (⟨nm⟩ : String)) := by
  obtain ⟨c, nm', rfl⟩ : ∃ c nm', nm = c :: nm' := by
    cases nm with
    | nil => exact absurd rfl hnm
    | cons c nm' => exact ⟨c, nm', rfl⟩
  have hhd' : isIdStart c = true := hhd
  have hall' : ∀ x ∈ nm', isIdChar x = true := fun x hx => hall x (List.mem_cons_of_mem _ hx)
  constructor
  · show renderToks env (tokenize (pre ++ '$' :: '{' :: ((c :: nm') ++ '}' :: post))) = _
    rw [tokenize_lit_pref pre _ hpre,
      tokenize_step (tokStep_braced c nm' post hhd' hall),
      tokenize_lit_all post hpost,
      renderToks_append]
    show renderToks env (pre.map Tok.lit)
        ++ (renderTok env (.braced ⟨c :: nm'⟩) ++ renderToks env (post.map Tok.lit)) = _
    rw [renderToks_lit, renderToks_lit, ← string_append_assoc]
    rfl
  · show renderToks env (tokenize (pre ++ '$' :: (c :: nm'))) = _
    rw [tokenize_lit_pref pre _ hpre,
      tokenize_step (tokStep_named c nm' hhd' hall'),
      tokenize_nil, renderToks_append]
    show renderToks env (pre.map Tok.lit) ++ (renderTok env (.named ⟨c :: nm'⟩) ++ "") = _
    rw [renderToks_lit,
      show renderTok env (.named ⟨c :: nm'⟩) ++ "" = renderTok env (.named ⟨c :: nm'⟩) from
        stringMk_inj (by rw [string_data_append]; simp)]
    rfl

theorem safe_substitution_witness :
    safeSubstitute "a${x}b" [("x", Value.vstr "V")] = "aVb"
    ∧ safeSubstitute "a$x" [("x", Value.vstr "V")] = "aV"
    ∧ safeSubstitute "a${y}b" [("x", Value.vstr "V")] = "a${y}b"
    ∧ safeSubstitute "a$y" [("x", Value.vstr "V")] = "a$y" := by
  have h1 := safe_substitution [("x", Value.vstr "V")] ['a'] ['b'] ['x']
    (by decide) (by decide) (by decide) (by decide) (by decide)
  have h2 := safe_substitution [("x", Value.vstr "V")] ['a'] ['b'] ['y']
    (by decide) (by decide) (by decide) (by decide) (by decide)
  exact ⟨h1.1, h1.2, h2.1, h2.2⟩

/-! ## C6: glob scoping of `file_list` returns -/

/-- Every stored path is made of plain entry names (the shape a real
directory tree guarantees: no separators, no empty or dot components). -/
def wfFsNames (fs : Fs) : Bool :=
  (fs.dirs ++ fs.files.map (·.1)).all (fun q => q.all safeName)

/-- C6 counterexample: a `file_list` glob pattern containing a `..`
component matches and reads a file strictly outside the job's scratch
tree — `glob.glob(..., root_dir=scratch)` performs no containment check,
so the bytes of `w/secret` flow into the result of a job whose scratch
directory is `w/J`. -/
theorem file_list_glob_escape_cex :
    fileListResolvedPaths { cwd := some "w" } "x" "J"
        ⟨[["w"], ["w", "J"]], [(["w", "secret"], "TOP")]⟩
        ⟨"out", "file_list", none, some "../secret", none, none⟩
      = [["w", "secret"]]
    ∧ startsWithComps (scratchComps { cwd := some "w" } "x" "J") ["w", "secret"] = false
    ∧ assembleItem { cwd := some "w" } "x" "J"
        ⟨[["w"], ["w", "J"]], [(["w", "secret"], "TOP")]⟩ "" ""
        (.dict ⟨"out", "file_list", none, some "../secret", none, none⟩)
      = .ok [("out", .payloadList [⟨toBase64 "TOP", some "../secret", "", "base64"⟩])] :=
  ⟨by decide, by decide, by decide⟩

theorem dedupAux_subset {α : Type} [BEq α] :
    ∀ (seen l : List α) (a : α), a ∈ dedupAux seen l → a ∈ l := by
  intro seen l
  induction l generalizing seen with
  | nil => intro a ha; cases ha
  | cons x r ih =>
    intro a ha
    unfold dedupAux at ha
    split at ha
    · exact List.mem_cons_of_mem _ (ih seen a ha)
    · rcases List.mem_cons.mp ha with rfl | ha'
      · exact List.mem_cons_self _ _
      · exact List.mem_cons_of_mem _ (ih _ a ha')

theorem getLast?_mem {α : Type} : ∀ (l : List α) (a : α), l.getLast? = some a → a ∈ l := by
  intro l
  induction l with
  | nil => intro a h; cases h
  | cons x r ih =>
    intro a h
    cases r with
    | nil =>
      simp only [List.getLast?_singleton] at h
      injection h with h'
      rw [h']
      exact List.mem_cons_self _ _
    | cons y r' =>
      rw [List.getLast?_cons_cons] at h
      exact List.mem_cons_of_mem _ (ih a h)

theorem childNames_safe (fs : Fs) (hwf : wfFsNames fs = true) (dpath : List String) :
    ∀ e ∈ childNames fs dpath, safeName e = true := by
  intro e he
  unfold childNames at he
  have he' := dedupAux_subset _ _ _ he
  rw [List.mem_filterMap] at he'
  obtain ⟨ppath, hp, hfm⟩ := he'
  split at hfm
  · have hmem : e ∈ ppath := getLast?_mem ppath e hfm
    unfold wfFsNames at hwf
    have hq := List.all_eq_true.mp hwf ppath hp
    exact List.all_eq_true.mp hq e hmem
  · cases hfm

theorem splitChars_no_sep_elem (sep : Char) :
    ∀ (l : List Char) (piece : List Char), piece ∈ splitChars sep l → sep ∉ piece := by
  intro l
  induction l with
  | nil =>
    intro piece hp
    rw [show splitChars sep [] = [[]] from rfl, List.mem_singleton] at hp
    subst hp
    exact List.not_mem_nil sep
  | cons c r ih =>
    intro piece hp
    unfold splitChars at hp
    by_cases hc : (c == sep) = true
    · rw [if_pos hc] at hp
      rcases List.mem_cons.mp hp with rfl | hp'
      · exact List.not_mem_nil sep
      · exact ih piece hp'
    · rw [if_neg hc] at hp
      cases hs : splitChars sep r with
      | nil => exact absurd hs (splitChars_ne_nil sep r)
      | cons p ps =>
        rw [hs] at hp
        rcases List.mem_cons.mp hp with rfl | hp'
        · intro hmem
          rcases List.mem_cons.mp hmem with rfl | hmem'
          · rw [beq_self_eq_true] at hc
            exact hc rfl
          · exact ih p (hs ▸ List.mem_cons_self _ _) hmem'
        · exact ih piece (hs ▸ List.mem_cons_of_mem _ hp')

theorem splitPath_no_slash_elem (g : String) : ∀ x ∈ splitPath g, '/' ∉ x.data := by
  intro x hx
  unfold splitPath at hx
  rw [List.mem_map] at hx
  obtain ⟨piece, hp, rfl⟩ := hx
  exact splitChars_no_sep_elem '/' g.data piece hp

theorem splitPath_ne_nil (g : String) : splitPath g ≠ [] := by
  unfold splitPath
  intro h
  exact splitChars_ne_nil '/' g.data (List.map_eq_nil_iff.mp h)

theorem joinWith_roundtrip : ∀ (acc : List String), acc ≠ [] →
    (∀ x ∈ acc, '/' ∉ x.data) → splitPath (joinWith "/" acc) = acc := by
  intro acc
  induction acc with
  | nil => intro h; exact absurd rfl h
  | cons x rest ih =>
    intro _ hx
    cases rest with
    | nil =>
      show splitPath x = [x]
      exact splitPath_no_slash x (hx x (List.mem_cons_self _ _))
    | cons y rest' =>
      show splitPath (x ++ "/" ++ joinWith "/" (y :: rest')) = x :: y :: rest'
      rw [splitPath_append_slash, splitPath_no_slash x (hx x (List.mem_cons_self _ _)),
        ih (by simp) (fun z hz => hx z (List.mem_cons_of_mem _ hz))]
      rfl

theorem startsWithComps_trans {p q r : List String}
    (h1 : startsWithComps p q = true) (h2 : startsWithComps q r = true) :
    startsWithComps p r = true := by
  obtain ⟨s, rfl⟩ := (startsWithComps_iff _ _).mp h1
  obtain ⟨t, rfl⟩ := (startsWithComps_iff _ _).mp h2
  rw [startsWithComps_iff]
  exact ⟨s ++ t, by rw [List.append_assoc]⟩

theorem resolveComps_foldl_pref :
    ∀ (b : List String), (∀ x ∈ b, x ≠ "..") → ∀ (cur : List String),
      startsWithComps cur (b.foldl (fun acc c =>
        if c == "" || c == "." then acc
        else if c == ".." then acc.dropLast
        else acc ++ [c]) cur) = true := by
  intro b
  induction b with
  | nil => intro _ cur; exact startsWithComps_self cur
  | cons x b' ih =>
    intro hb cur
    rw [List.foldl_cons]
    by_cases h1 : (x == "" || x == ".") = true
    · rw [if_pos h1]
      exact ih (fun z hz => hb z (List.mem_cons_of_mem _ hz)) cur
    · rw [if_neg h1]
      have hx : (x == "..") = false :=
        beq_eq_false_iff_ne.mpr (hb x (List.mem_cons_self _ _))
      rw [hx]
      show startsWithComps cur (List.foldl _ (cur ++ [x]) b') = true
      exact startsWithComps_trans (startsWithComps_append cur [x])
        (ih (fun z hz => hb z (List.mem_cons_of_mem _ hz)) (cur ++ [x]))

theorem resolveComps_append_pref (a b : List String) (hb : ∀ x ∈ b, x ≠ "..") :
    startsWithComps (resolveComps a) (resolveComps (a ++ b)) = true := by
  unfold resolveComps
  rw [List.foldl_append]
  exact resolveComps_foldl_pref b hb _

theorem globCollect_shape (fs : Fs) (rd : List String) (hwf : wfFsNames fs = true) :
    ∀ (comps : List String) (acc0 : List String),
      (∀ x ∈ comps, x ≠ "..") →
      (∀ x ∈ comps, '/' ∉ x.data) →
      (∀ x ∈ acc0, x ≠ ".." ∧ '/' ∉ x.data) →
      ∀ acc ∈ globCollect fs rd acc0 comps,
        (∀ x ∈ acc, x ≠ ".." ∧ '/' ∉ x.data) ∧ acc.length = acc0.length + comps.length := by
  intro comps
  induction comps with
  | nil =>
    intro acc0 _ _ hacc0 acc hacc
    unfold globCollect at hacc
    split at hacc
    · rw [List.mem_singleton] at hacc
      subst hacc
      exact ⟨hacc0, by simp⟩
    · cases hacc
  | cons cmp rest ih =>
    intro acc0 hdd hsl hacc0 acc hacc
    unfold globCollect at hacc
    by_cases hm : hasMagic cmp = true
    · rw [if_pos hm] at hacc
      rw [List.mem_flatMap] at hacc
      obtain ⟨e, he, hacc'⟩ := hacc
      have hesafe : safeName e = true :=
        childNames_safe fs hwf _ e (List.mem_of_mem_filter he)
      obtain ⟨hsl', _, _, hdd'⟩ := safeName_spec hesafe
      have hres := ih (acc0 ++ [e]) (fun z hz => hdd z (List.mem_cons_of_mem _ hz))
        (fun z hz => hsl z (List.mem_cons_of_mem _ hz))
        (by
          intro x hx
          rcases List.mem_append.mp hx with hxl | hxr
          · exact hacc0 x hxl
          · rw [List.mem_singleton] at hxr
            subst hxr
            exact ⟨hdd', hsl'⟩)
        acc hacc'
      refine ⟨hres.1, ?_⟩
      have hlen := hres.2
      simp only [List.length_append, List.length_cons, List.length_nil] at hlen
      simp only [List.length_cons]
      omega
    · rw [if_neg hm] at hacc
      have hres := ih (acc0 ++ [cmp]) (fun z hz => hdd z (List.mem_cons_of_mem _ hz))
        (fun z hz => hsl z (List.mem_cons_of_mem _ hz))
        (by
          intro x hx
          rcases List.mem_append.mp hx with hxl | hxr
          · exact hacc0 x hxl
          · rw [List.mem_singleton] at hxr
            rw [hxr]
            exact ⟨hdd cmp (List.mem_cons_self _ _), hsl cmp (List.mem_cons_self _ _)⟩)
        acc hacc
      refine ⟨hres.1, ?_⟩
      have hlen := hres.2
      simp only [List.length_append, List.length_cons, List.length_nil] at hlen
      simp only [List.length_cons]
      omega

/-- C6 amended: the glob of a structured `file_list` entry is evaluated
with the job's scratch directory as its root, and every match of a
pattern free of `..` components resolves to a path inside the scratch
tree (over a well-formed directory tree); patterns containing `..`
components, however, can match and read files outside the scratch
directory, so containment is not guaranteed in general. -/
theorem file_list_scoped (cfg : CmdConfig) (dw jid : String) (fs : Fs)
    (d : RetDict) (g : String)
    (hg : d.glob = some g)
    (hdd : ∀ x ∈ splitPath g, x ≠ "..")
    (hwf : wfFsNames fs = true) :
    ∀ p ∈ fileListResolvedPaths cfg dw jid fs d,
      startsWithComps (scratchComps cfg dw jid) p = true := by
  intro p hp
  have hml : fileListMatches cfg dw jid fs d
      = if (g == "") = true then [] else globGlob fs (scratchComps cfg dw jid) g := by
    unfold fileListMatches
    rw [hg]
  unfold fileListResolvedPaths at hp
  rw [hml] at hp
  by_cases hge : (g == "") = true
  · rw [if_pos hge] at hp
    cases hp
  · rw [if_neg hge] at hp
    rw [List.mem_map] at hp
    obtain ⟨m, hm, rfl⟩ := hp
    unfold globGlob at hm
    rw [List.mem_map] at hm
    obtain ⟨acc, hacc, rfl⟩ := hm
    have hshape := globCollect_shape fs (scratchComps cfg dw jid) hwf (splitPath g) []
      hdd (splitPath_no_slash_elem g) (fun x hx => absurd hx (List.not_mem_nil x)) acc hacc
    have haccne : acc ≠ [] := by
      intro h0
      rw [h0] at hshape
      have h2 := hshape.2
      simp only [List.length_nil] at h2
      have hlen : (splitPath g).length = 0 := by omega
      exact splitPath_ne_nil g (List.length_eq_zero.mp hlen)
    have hround : splitPath (joinWith "/" acc) = acc :=
      joinWith_roundtrip acc haccne (fun x hx => (hshape.1 x hx).2)
    show startsWithComps (scratchComps cfg dw jid)
      (pathComps (jobPathStr cfg dw jid ++ "/" ++ joinWith "/" acc)) = true
    unfold pathComps
    rw [splitPath_append_slash, hround]
    exact resolveComps_append_pref (splitPath (jobPathStr cfg dw jid)) acc
      (fun x hx => (hshape.1 x hx).1)

theorem file_list_scoped_witness :
    wfFsNames ⟨[["w"], ["w", "J"]],
      [(["w", "J", "a.txt"], "A"), (["w", "J", "b.txt"], "B"), (["w", "J", "c.log"], "C")]⟩
      = true
    ∧ fileListResolvedPaths { cwd := some "w" } "x" "J"
        ⟨[["w"], ["w", "J"]],
          [(["w", "J", "a.txt"], "A"), (["w", "J", "b.txt"], "B"), (["w", "J", "c.log"], "C")]⟩
        ⟨"out", "file_list", none, some "*.txt", none, none⟩
      = [["w", "J", "a.txt"], ["w", "J", "b.txt"]]
    ∧ ∀ p ∈ fileListResolvedPaths { cwd := some "w" } "x" "J"
        ⟨[["w"], ["w", "J"]],
          [(["w", "J", "a.txt"], "A"), (["w", "J", "b.txt"], "B"), (["w", "J", "c.log"], "C")]⟩
        ⟨"out", "file_list", none, some "*.txt", none, none⟩,
        startsWithComps (scratchComps { cwd := some "w" } "x" "J") p = true :=
  ⟨by decide, by decide,
   file_list_scoped { cwd := some "w" } "x" "J"
     ⟨[["w"], ["w", "J"]],
       [(["w", "J", "a.txt"], "A"), (["w", "J", "b.txt"], "B"), (["w", "J", "c.log"], "C")]⟩
     ⟨"out", "file_list", none, some "*.txt", none, none⟩ "*.txt"
     (by decide) (by decide) (by decide)⟩
